import Mathlib

/-!
# govendor `context/path.go`: import-path resolution and package removal

A shallow embedding of `src/context/path.go`.

* Go strings are lists of characters (`Path`).  The only bytes the code and
  `path/filepath` inspect are `/` and `.`, which are ASCII, so working with
  characters instead of bytes changes nothing.
* `filepath.Clean` and `filepath.Join` (Go standard library, Unix flavour) are
  modelled on path elements, following the four documented rules of `Clean`.
* The read-only functions (`findImportDir`, `findRoot`, `findCanonicalPath`)
  see the file system through `Env.Stat`, an arbitrary function from path
  strings to stat outcomes.
* `removePackage` changes the file system; it is written against an abstract
  operating-system interface `OS σ` threading a state `σ`, and `dirOS` is a
  concrete instance of it on a table of directory entries.
* Go's `for { ... }` without a bound is run with fuel; a Go `panic` is the
  outcome `Outcome.panicked`.
-/

namespace Govendor

/-- A Go string. -/
abbrev Path := List Char

/-! ## `path/filepath` on Unix -/

/-- The elements of a path: the pieces between the `/` separators
(`strings.Split(path, "/")`). -/
def splitSlash : List Char → List (List Char)
  | [] => [[]]
  | c :: cs =>
    if c = '/' then [] :: splitSlash cs
    else match splitSlash cs with
      | [] => [[c]]
      | e :: es => (c :: e) :: es

/-- One element processed by `filepath.Clean`; `st` is the output written so
far, innermost element first.  Empty elements and `.` are dropped; `..`
removes the element before it when there is one that is not itself `..`,
is dropped at the start of a rooted path, and is kept otherwise. -/
def cleanStep (rooted : Bool) (st : List (List Char)) (e : List Char) : List (List Char) :=
  if e = [] ∨ e = ['.'] then st
  else if e = ['.', '.'] then
    match st with
    | [] => if rooted then [] else [e]
    | top :: rest => if top = ['.', '.'] then (if rooted then st else e :: st) else rest
  else e :: st

/-- The output buffer of `filepath.Clean` as a string. -/
def render (rooted : Bool) (st : List (List Char)) : Path :=
  if rooted then '/' :: List.intercalate ['/'] st.reverse
  else if st = [] then ['.'] else List.intercalate ['/'] st.reverse

/-- The function `filepath.Clean`. -/
def Clean (path : Path) : Path :=
  if path = [] then ['.']
  else
    let rooted := path.head? = some '/'
    render rooted ((splitSlash path).foldl (cleanStep rooted) [])

/-- The function `filepath.Join`: leading empty elements are skipped, the rest
is joined with `/` and cleaned; all elements empty gives the empty string. -/
def Join : List Path → Path
  | [] => []
  | e :: rest => if e = [] then Join rest else Clean (List.intercalate ['/'] (e :: rest))

/-! ## Data model -/

/-- The payload of `ErrNotInGOPATH`: either a bare path, or the text
`fmt.Sprintf("Import: %q relative: %q", importPath, relative)`, kept as its two
arguments. -/
inductive Message where
  | plain (path : Path)
  | importRelative (importPath relative : Path)
  deriving DecidableEq

/-- Go `error` values this file produces or passes on. -/
inductive Error where
  /-- The error `ErrNotInGOPATH{msg}`. -/
  | ErrNotInGOPATH (msg : Message)
  /-- The sentinel `ErrMissingVendorFile`. -/
  | ErrMissingVendorFile
  /-- The sentinel `io.EOF`. -/
  | EOF
  /-- Any other error of the operating system or of `readVendorFile`. -/
  | io (code : Nat)
  deriving DecidableEq

/-- What a call either returns, or how it fails to return. -/
inductive Outcome (α : Type) where
  | ret (a : α)
  /-- A Go run-time panic. -/
  | panicked
  /-- The fuel of an unbounded loop ran out. -/
  | outOfFuel
  deriving DecidableEq

/-- The result of `os.Stat(name)`, as far as this file looks at it. -/
inductive StatResult where
  /-- An error for which `os.IsNotExist` is true. -/
  | notExist
  /-- Any other error; the returned `FileInfo` is nil. -/
  | failed (code : Nat)
  /-- Success, with `fi.IsDir()`. -/
  | info (isDir : Bool)
  deriving DecidableEq

/-- One record of the vendor file. -/
structure VendorPackage where
  Local : Path
  Canonical : Path
  deriving DecidableEq

/-- The vendor file as `readVendorFile` returns it. -/
structure VendorFile where
  Package : List VendorPackage
  deriving DecidableEq

/-- The type `Context`, with its two fields used here. -/
structure Context where
  GopathList : List Path
  Goroot : Path

/-- What `path.go` uses and does not define: the file-system snapshot seen
through `os.Stat`, `pathos.FileHasPrefix`, the constants `looplimit` and
`vendorFilename`, and `readVendorFile`. -/
structure Env where
  Stat : Path → StatResult
  FileHasPrefix : Path → Path → Bool
  looplimit : Nat
  vendorFilename : Path
  readVendorFile : Path → Except Error VendorFile

/-- The three results of `findImportDir`. -/
structure ImportDir where
  dir : Path
  gopath : Path
  err : Option Error
  deriving DecidableEq

def strVendor : Path := ['v', 'e', 'n', 'd', 'o', 'r']
def strDotDot : Path := ['.', '.']
def strBuiltin : Path := ['b', 'u', 'i', 'l', 't', 'i', 'n']
def strUnsafe : Path := ['u', 'n', 's', 'a', 'f', 'e']
def strC : Path := ['C']

/-! ## `findImportDir` -/

/-- Lines 38-42: the first root of the list that `FileHasPrefix` accepts for `look`. -/
def firstPrefixRoot (env : Env) (look : Path) : List Path → Option Path
  | [] => none
  | gopath :: rest =>
    if env.FileHasPrefix look gopath then some gopath else firstPrefixRoot env look rest

/-- Lines 24-44, the `for { ... }` over `rel`.  `ret none` is the `break`;
`ret (some r)` is a `return` from inside the loop.  When `os.Stat` fails with
an error other than not-exist, `fi` is nil and `fi.IsDir()` panics. -/
def vendorWalk (env : Env) (ctx : Context) (relative importPath : Path) :
    Nat → Path → Outcome (Option ImportDir)
  | 0, _ => .outOfFuel
  | fuel + 1, rel =>
    let look := Join [rel, strVendor, importPath]
    let nextRel := Join [rel, strDotDot]
    if rel = nextRel then .ret none
    else
      match env.Stat look with
      | .notExist => vendorWalk env ctx relative importPath fuel nextRel
      | .failed _ => .panicked
      | .info false => vendorWalk env ctx relative importPath fuel nextRel
      | .info true =>
        match firstPrefixRoot env look ctx.GopathList with
        | some gopath => .ret (some ⟨look, gopath, none⟩)
        | none =>
          .ret (some ⟨[], [], some (.ErrNotInGOPATH (.importRelative importPath relative))⟩)

/-- Lines 47-58, the loop over `ctx.GopathList` and the final error. -/
def gopathScan (env : Env) (importPath : Path) : List Path → Outcome ImportDir
  | [] => .ret ⟨[], [], some (.ErrNotInGOPATH (.plain importPath))⟩
  | gopath :: rest =>
    let dir := Join [gopath, importPath]
    match env.Stat dir with
    | .notExist => gopathScan env importPath rest
    | .failed _ => .panicked
    | .info false => gopathScan env importPath rest
    | .info true => .ret ⟨dir, gopath, none⟩

/-- The method `(*Context).findImportDir`. -/
def findImportDir (env : Env) (ctx : Context) (fuel : Nat) (relative importPath : Path) :
    Outcome ImportDir :=
  if importPath = strBuiltin ∨ importPath = strUnsafe ∨ importPath = strC then
    .ret ⟨Join [ctx.Goroot, importPath], ctx.Goroot, none⟩
  else if relative.length ≠ 0 then
    match vendorWalk env ctx relative importPath fuel relative with
    | .ret (some r) => .ret r
    | .ret none => gopathScan env importPath ctx.GopathList
    | .panicked => .panicked
    | .outOfFuel => .outOfFuel
  else gopathScan env importPath ctx.GopathList

/-! ## `findRoot` and `findCanonicalPath` -/

/-- The body of the loop of `findRoot`, with `n` iterations left; the loop
running out is `panic("findRoot loop limit")`. -/
def findRootLoop (env : Env) (vendorPath : Path) : Nat → Path → Outcome (Path × Option Error)
  | 0, _ => .panicked
  | n + 1, folder =>
    let test := Join [folder, vendorPath]
    match env.Stat test with
    | .notExist =>
      let nextFolder := Clean (Join [folder, strDotDot])
      if nextFolder = folder then .ret ([], some .ErrMissingVendorFile)
      else findRootLoop env vendorPath n nextFolder
    | _ => .ret (folder, none)

/-- The function `findRoot`: `for i := 0; i <= looplimit; i++`. -/
def findRoot (env : Env) (folder vendorPath : Path) : Outcome (Path × Option Error) :=
  findRootLoop env vendorPath (env.looplimit + 1) folder

/-- Lines 116-123: the scan of the package records. -/
def scanPackages (importPath : Path) : List VendorPackage → Path
  | [] => importPath
  | pkg :: rest => if pkg.Local = importPath then pkg.Canonical else scanPackages importPath rest

/-- The method `(*Context).findCanonicalPath`. -/
def findCanonicalPath (env : Env) (ctx : Context) (fuel : Nat) (importPath : Path) :
    Outcome (Path × Option Error) :=
  match findImportDir env ctx fuel [] importPath with
  | .panicked => .panicked
  | .outOfFuel => .outOfFuel
  | .ret ⟨_, _, some err⟩ => .ret ([], some err)
  | .ret ⟨dir, _, none⟩ =>
    match findRoot env dir env.vendorFilename with
    | .panicked => .panicked
    | .outOfFuel => .outOfFuel
    | .ret (_, some err) =>
      if err = .ErrMissingVendorFile then .ret (importPath, none) else .ret ([], some err)
    | .ret (root, none) =>
      match env.readVendorFile (Join [root, env.vendorFilename]) with
      | .error err => .ret ([], some err)
      | .ok vf => .ret (scanPackages importPath vf.Package, none)

/-! ## `removePackage` -/

/-- A directory entry as `Readdir` reports it: `fi.Name()` and `fi.IsDir()`. -/
structure FileInfo where
  Name : Path
  IsDir : Bool
  deriving DecidableEq

/-- The calls of package `os` that `removePackage` makes, over a file-system
state `σ`.  A directory handle is named by the path it was opened with.
Every call may change the state and may fail; `none` is a nil error. -/
structure OS (σ : Type) where
  /-- The call `os.Open(path)`. -/
  Open : Path → σ → Option Error × σ
  /-- The call `dir.Readdir(n)` on the handle opened at the path. -/
  Readdir : Path → Int → σ → (List FileInfo × Option Error) × σ
  /-- The call `dir.Close()`, whose result the code ignores. -/
  Close : Path → σ → σ
  /-- The call `os.Remove(path)`. -/
  Remove : Path → σ → Option Error × σ

/-- Lines 162-170: remove every entry that is not a directory, stopping at the
first error. -/
def removeFiles {σ : Type} (os : OS σ) (path : Path) : List FileInfo → σ → Option Error × σ
  | [], s => (none, s)
  | fi :: rest, s =>
    if fi.IsDir then removeFiles os path rest s
    else
      match os.Remove (Join [path, fi.Name]) s with
      | (some err, s1) => (some err, s1)
      | (none, s1) => removeFiles os path rest s1

/-- Lines 173-201: the loop that removes empty folders upward, with `n`
iterations left; running out of them is
`panic("removePackage() remove parent folders")`. -/
def pruneLoop {σ : Type} (os : OS σ) : Nat → Path → σ → Outcome (Option Error) × σ
  | 0, _, s => (.panicked, s)
  | n + 1, path, s =>
    match os.Open path s with
    | (some _, s1) => (.ret none, s1)
    | (none, s1) =>
      match os.Readdir path 1 s1 with
      | ((fl, err), s2) =>
        let s3 := os.Close path s2
        if err ≠ none ∧ err ≠ some .EOF then (.ret none, s3)
        else if fl.length > 0 then (.ret none, s3)
        else
          match os.Remove path s3 with
          | (some _, s4) => (.ret none, s4)
          | (none, s4) =>
            let nextPath := Clean (Join [path, strDotDot])
            if nextPath = path then (.ret none, s4)
            else pruneLoop os n nextPath s4

/-- The function `removePackage`; the result is the returned error and the
file-system state left behind. -/
def removePackage {σ : Type} (os : OS σ) (looplimit : Nat) (path : Path) (s : σ) :
    Outcome (Option Error) × σ :=
  match os.Open path s with
  | (some err, s1) => (.ret (some err), s1)
  | (none, s1) =>
    match os.Readdir path (-1) s1 with
    | ((fl, err), s2) =>
      let s3 := os.Close path s2
      match err with
      | some e => (.ret (some e), s3)
      | none =>
        match removeFiles os path fl s3 with
        | (some e, s4) => (.ret (some e), s4)
        | (none, s4) => pruneLoop os (looplimit + 1) path s4

/-! ## A directory-table file system -/

/-- One entry of a directory: the directory holding it, its name and its kind. -/
structure Dentry where
  dir : Path
  name : Path
  isDir : Bool
  deriving DecidableEq

/-- The path of an entry. -/
def Dentry.path (e : Dentry) : Path := Join [e.dir, e.name]

/-- The root directory, which always exists and has no entry of its own. -/
def rootDir : Path := ['/']

/-- Something exists at `p`. -/
def nodeExists (fs : List Dentry) (p : Path) : Bool :=
  decide (p = rootDir) || fs.any (fun e => decide (e.path = p))

/-- A directory exists at `p`. -/
def isDirectory (fs : List Dentry) (p : Path) : Bool :=
  decide (p = rootDir) || fs.any (fun e => e.isDir && decide (e.path = p))

/-- The entries of the directory `p`, in table order. -/
def entriesOf (fs : List Dentry) (p : Path) : List FileInfo :=
  (fs.filter (fun e => decide (e.dir = p))).map (fun e => ⟨e.name, e.isDir⟩)

/-- The file system as the list of its directory entries, with the Unix
behaviour of the four calls: opening needs the path to exist (else ENOENT, 2);
listing needs a directory (else ENOTDIR, 20), a positive count gives at most
that many entries and `io.EOF` when there is none; removing is refused for the
paths in `deny` (EACCES, 13), for the root (EBUSY, 16), for a missing path
(ENOENT, 2) and for something that has entries (ENOTEMPTY, 39). -/
def dirOS (deny : List Path) : OS (List Dentry) where
  Open := fun p fs => if nodeExists fs p then (none, fs) else (some (.io 2), fs)
  Readdir := fun p n fs =>
    if isDirectory fs p then
      if n ≤ 0 then ((entriesOf fs p, none), fs)
      else if entriesOf fs p = [] then (([], some .EOF), fs)
      else (((entriesOf fs p).take n.toNat, none), fs)
    else (([], some (.io 20)), fs)
  Close := fun _ fs => fs
  Remove := fun p fs =>
    if p ∈ deny then (some (.io 13), fs)
    else if p = rootDir then (some (.io 16), fs)
    else if nodeExists fs p = false then (some (.io 2), fs)
    else if fs.any (fun e => decide (e.dir = p)) then (some (.io 39), fs)
    else (none, fs.filter (fun e => decide (e.path ≠ p)))

/-! ## Vocabulary of the statements about `findImportDir` -/

/-- The folder reached from `rel` after `k` steps to the parent, the parent of
a folder being `filepath.Join(folder, "..")` as in the vendor walk. -/
def ancestorAt (rel : Path) : Nat → Path
  | 0 => rel
  | k + 1 => ancestorAt (Join [rel, strDotDot]) k

/-- The candidate `ancestor/vendor/importPath` the walk from `rel` tests in round `k`. -/
def vendorLook (rel importPath : Path) (k : Nat) : Path :=
  Join [ancestorAt rel k, strVendor, importPath]

/-- Modelled from the spec: `pathos.FileHasPrefix`, which the source files do
not contain.  The spec tests "whether `directory` is prefixed by that root";
this is the string prefix test of a case-sensitive host.  The functions of
`path.go` take the test from `Env.FileHasPrefix`; this one fills it in for the
concrete examples. -/
def stringHasPrefix (s pre : Path) : Bool := pre.isPrefixOf s

/-! ## Concrete snapshots used by the examples -/

/-- The stat function of a snapshot listed by its directories, its regular
files and the paths on which `os.Stat` is refused (permission denied, errno 13). -/
def statOf (dirs files denied : List Path) (q : Path) : StatResult :=
  if q ∈ denied then .failed 13
  else if q ∈ dirs then .info true
  else if q ∈ files then .info false
  else .notExist

/-- An environment over such a snapshot, with the string prefix test, a given
loop limit and a vendor file called `vendor.json` (the name the spec gives as
an example).  Reading a vendor file follows the snapshot: it gives `vf` at a
regular file and fails at a directory (EISDIR, 21), at a missing path
(ENOENT, 2) and at a refused path, so whatever is read is also found by stat. -/
def envOf (dirs files denied : List Path) (limit : Nat) (vf : VendorFile) : Env where
  Stat := statOf dirs files denied
  FileHasPrefix := stringHasPrefix
  looplimit := limit
  vendorFilename := "vendor.json".toList
  readVendorFile := fun q =>
    match statOf dirs files denied q with
    | .info false => .ok vf
    | .info true => .error (.io 21)
    | .notExist => .error (.io 2)
    | .failed c => .error (.io c)

/-- Two workspace roots; `x/y` is a directory under the second one only. -/
def twoRootsEnv : Env :=
  envOf ["/ws1".toList, "/ws1/proj".toList, "/ws2".toList, "/ws2/x".toList, "/ws2/x/y".toList]
    [] [] 100 ⟨[]⟩

def twoRootsCtx : Context := ⟨["/ws1".toList, "/ws2".toList], "/go".toList⟩

/-- A project with a vendored `x` two folders above the importing folder, a
regular file called `vendor/x` next to the importing folder, and a copy of `x`
directly under the workspace root. -/
def nestedVendorEnv : Env :=
  envOf ["/ws".toList, "/ws/x".toList, "/ws/proj".toList, "/ws/proj/vendor".toList,
      "/ws/proj/vendor/x".toList, "/ws/proj/cmd".toList, "/ws/proj/cmd/vendor".toList]
    ["/ws/proj/cmd/vendor/x".toList] [] 100 ⟨[]⟩

def oneRootCtx : Context := ⟨["/ws".toList], "/go".toList⟩

/-- The vendored `x` sits in `/other/proj/vendor`, outside the only root `/ws`,
which has its own `x`. -/
def outsideVendorEnv : Env :=
  envOf ["/ws".toList, "/ws/x".toList, "/other".toList, "/other/proj".toList,
      "/other/proj/vendor".toList, "/other/proj/vendor/x".toList, "/other/proj/cmd".toList]
    [] [] 100 ⟨[]⟩

/-- The only vendored `x` sits in `/vendor`, directly under the file-system root. -/
def rootVendorEnv : Env :=
  envOf ["/".toList, "/proj".toList, "/vendor".toList, "/vendor/x".toList, "/ws".toList,
      "/ws/x".toList] [] [] 100 ⟨[]⟩

def slashRootCtx : Context := ⟨["/".toList], "/go".toList⟩

/-- As `nestedVendorEnv`, with the stat of `/ws/proj/cmd/vendor/x` refused. -/
def deniedVendorEnv : Env :=
  envOf ["/ws".toList, "/ws/x".toList, "/ws/proj".toList, "/ws/proj/vendor".toList,
      "/ws/proj/vendor/x".toList, "/ws/proj/cmd".toList]
    [] ["/ws/proj/cmd/vendor/x".toList] 100 ⟨[]⟩

/-- As `outsideVendorEnv`, with the stat of `/other/proj/cmd/vendor/x` refused. -/
def deniedOutsideEnv : Env :=
  envOf ["/ws".toList, "/ws/x".toList, "/other".toList, "/other/proj".toList,
      "/other/proj/vendor".toList, "/other/proj/vendor/x".toList, "/other/proj/cmd".toList]
    [] ["/other/proj/cmd/vendor/x".toList] 100 ⟨[]⟩

/-- The stat of `/ws/x` is refused. -/
def deniedRootEnv : Env :=
  envOf ["/ws".toList, "/ws/proj".toList] [] ["/ws/x".toList] 100 ⟨[]⟩

/-! ## Vocabulary of the statements about paths -/

/-- A proper path element: not empty, not `.`, not `..`, and without `/`. -/
def IsElem (e : List Char) : Prop :=
  e ≠ [] ∧ e ≠ ['.'] ∧ e ≠ ['.', '.'] ∧ '/' ∉ e

/-- The output buffer of `filepath.Clean` after the whole of `path` is read. -/
def cleanStack (rooted : Bool) (path : Path) : List (List Char) :=
  (splitSlash path).foldl (cleanStep rooted) []

/-- The path `../../..` with `m` elements `..`. -/
def dotDots (m : Nat) : Path := List.intercalate ['/'] (List.replicate m strDotDot)

/-- The rooted path `/a/a/.../a` with `m` elements. -/
def deepFolder (m : Nat) : Path := render true (List.replicate m ['a'])

/-- A file system on which nothing exists, with the Linux limit on the length
of a path name (`PATH_MAX`, 4096 bytes with the final zero): the stat of a name
of 4096 bytes or more fails with ENAMETOOLONG (errno 36), and any other stat
reports not-exists. -/
def pathMaxEnv : Env where
  Stat := fun q => if 4096 ≤ q.length then .failed 36 else .notExist
  FileHasPrefix := stringHasPrefix
  looplimit := 100
  vendorFilename := "vendor.json".toList
  readVendorFile := fun _ => .error (.io 2)

/-- The package `a/x` under the root `/ws`, no vendor file anywhere, and a loop
limit of 1. -/
def lowLimitEnv : Env :=
  envOf ["/".toList, "/ws".toList, "/ws/a".toList, "/ws/a/x".toList] [] [] 1 ⟨[]⟩

/-! ## Vocabulary of the statements about `findRoot` -/

/-- The folder `findRoot` tests in round `k`, the parent of a folder being
`filepath.Clean(filepath.Join(folder, ".."))` as in its loop. -/
def rootFolderAt (folder : Path) : Nat → Path
  | 0 => folder
  | k + 1 => rootFolderAt (Clean (Join [folder, strDotDot])) k

/-- The marker path `findRoot` stats in round `k`. -/
def markerAt (folder vendorPath : Path) (k : Nat) : Path :=
  Join [rootFolderAt folder k, vendorPath]

/-- Round `j` of `findRoot` goes on to the parent: the marker is reported
absent and the folder differs from its parent. -/
def RootContinues (env : Env) (folder vendorPath : Path) (j : Nat) : Prop :=
  env.Stat (markerAt folder vendorPath j) = .notExist ∧
    rootFolderAt folder (j + 1) ≠ rootFolderAt folder j

/-- A project under `/ws` whose vendor file cannot be examined (the stat of
`/ws/proj/vendor.json` is refused); the nearest vendor file that can is
`/ws/vendor.json`. -/
def deniedMarkerEnv : Env :=
  envOf ["/ws".toList, "/ws/proj".toList] ["/ws/vendor.json".toList]
    ["/ws/proj/vendor.json".toList] 100 ⟨[]⟩

/-- The rooted path `/a/.../a/x`: the package `x` below `m` folders `a`. -/
def deepPackage (m : Nat) : Path := render true (['x'] :: List.replicate m ['a'])

/-- The only thing that exists is the directory `/a/.../a/x`, one level deeper
than the loop limit allows for. -/
def deepEnv (limit : Nat) : Env := envOf [deepPackage (limit + 1)] [] [] limit ⟨[]⟩

/-- The single root `/a/.../a` above `deepPackage`. -/
def deepCtx (limit : Nat) : Context := ⟨[deepFolder (limit + 1)], "/go".toList⟩

/-- The package `proj/vendor/x` under the root `/ws` with the vendor file
`/ws/proj/vendor.json`, whose records map `proj/vendor/y` and `proj/vendor/x`
to their origins. -/
def vendoredEnv : Env :=
  envOf ["/ws".toList, "/ws/proj".toList, "/ws/proj/vendor".toList,
      "/ws/proj/vendor/x".toList, "/ws/proj/vendor/z".toList, "/ws/plain".toList]
    ["/ws/proj/vendor.json".toList] [] 100
    ⟨[⟨"proj/vendor/y".toList, "github.com/u/y".toList⟩,
      ⟨"proj/vendor/x".toList, "github.com/u/x".toList⟩,
      ⟨"proj/vendor/x".toList, "github.com/other/x".toList⟩]⟩

/-! ## Vocabulary of the statements about `removePackage` -/

/-- The first phase of `removePackage` in the words of the specification: open
the path, list its entries, delete every entry that is not a directory; the
result is the first error met, if any, and the state left behind. -/
def phaseOne {σ : Type} (os : OS σ) (path : Path) (s : σ) : Option Error × σ :=
  match os.Open path s with
  | (some err, s1) => (some err, s1)
  | (none, s1) =>
    match os.Readdir path (-1) s1 with
    | ((_, some err), s2) => (some err, os.Close path s2)
    | ((fl, none), s2) => removeFiles os path fl (os.Close path s2)

/-- Well-formedness of a directory table, in terms of the path functions the
code uses: the parent of an entry's path is the directory holding it and is a
shorter string, no entry sits at the root path, the directory holding an entry
is the root or is itself an entry that is a directory, and no two entries
share a path. -/
def WellFormed (fs : List Dentry) : Prop :=
  (∀ e, e ∈ fs → Clean (Join [e.path, strDotDot]) = e.dir) ∧
  (∀ e, e ∈ fs → e.dir.length < e.path.length) ∧
  (∀ e, e ∈ fs → e.path ≠ rootDir) ∧
  (∀ e, e ∈ fs → e.dir = rootDir ∨ ∃ d, d ∈ fs ∧ d.isDir = true ∧ d.path = e.dir) ∧
  (∀ e, e ∈ fs → ∀ d, d ∈ fs → e.path = d.path → e = d) ∧
  fs.Nodup

/-- The directory table left when the entries of `path` and the folders
`path`, parent of `path`, ... up to round `i` (excluded) are gone. -/
def prunedTo (fs : List Dentry) (path : Path) (i : Nat) : List Dentry :=
  fs.filter (fun x => decide (x.dir ≠ path ∧ ∀ j, j < i → x.path ≠ rootFolderAt path j))

/-- The situation of `removePackage(path)` on a well-formed table: `path` is a
folder holding files only; each of the `m - 1` folders above it holds nothing
but the folder below it and is not the root; the folder `m` steps up is the
root or holds something else. -/
structure PruneChain (fs : List Dentry) (path : Path) (m : Nat) : Prop where
  wf : WellFormed fs
  isDir : ∃ e, e ∈ fs ∧ e.isDir = true ∧ e.path = path
  files : ∀ e, e ∈ fs → e.dir = path → e.isDir = false
  pos : 1 ≤ m
  lonely : ∀ j, 1 ≤ j → j < m → ∀ e, e ∈ fs → e.dir = rootFolderAt path j →
    e.path = rootFolderAt path (j - 1)
  notRoot : ∀ j, j < m → rootFolderAt path j ≠ rootDir
  stop : rootFolderAt path m = rootDir ∨
    ∃ e, e ∈ fs ∧ e.dir = rootFolderAt path m ∧ e.path ≠ rootFolderAt path (m - 1)

/-! ## Concrete directory tables used by the examples -/

/-- A vendored package `/ws/proj/vendor/a/b` holding two files, alone in
`/ws/proj/vendor/a`; `/ws/proj/vendor` also holds the file `keep.txt`. -/
def vendorTree : List Dentry :=
  [⟨"/".toList, "ws".toList, true⟩,
   ⟨"/ws".toList, "proj".toList, true⟩,
   ⟨"/ws/proj".toList, "vendor".toList, true⟩,
   ⟨"/ws/proj/vendor".toList, "keep.txt".toList, false⟩,
   ⟨"/ws/proj/vendor".toList, "a".toList, true⟩,
   ⟨"/ws/proj/vendor/a".toList, "b".toList, true⟩,
   ⟨"/ws/proj/vendor/a/b".toList, "b.go".toList, false⟩,
   ⟨"/ws/proj/vendor/a/b".toList, "doc.go".toList, false⟩]

/-- A package `/pkg` with three files, directly under the root. -/
def flatTree : List Dentry :=
  [⟨"/".toList, "pkg".toList, true⟩,
   ⟨"/pkg".toList, "a.go".toList, false⟩,
   ⟨"/pkg".toList, "b.go".toList, false⟩,
   ⟨"/pkg".toList, "c.go".toList, false⟩]

/-! ## Lemmas on `findImportDir` -/

theorem firstPrefixRoot_eq_find (env : Env) (look : Path) (l : List Path) :
    firstPrefixRoot env look l = l.find? (fun g => env.FileHasPrefix look g) := by
  induction l with
  | nil => rfl
  | cons g gs ih =>
    by_cases h : env.FileHasPrefix look g = true
    · simp [firstPrefixRoot, List.find?, h]
    · simp [firstPrefixRoot, List.find?, h, ih]

theorem ancestorAt_succ (rel : Path) (k : Nat) :
    ancestorAt rel (k + 1) = Join [ancestorAt rel k, strDotDot] := by
  induction k generalizing rel with
  | zero => rfl
  | succ k ih =>
    have h := ih (Join [rel, strDotDot])
    simpa [ancestorAt] using h

/-- Rounds of the walk that neither stop at the root nor meet a directory are
passed over. -/
theorem vendorWalk_skip (env : Env) (ctx : Context) (relative importPath : Path)
    (k : Nat) : ∀ (rel : Path) (fuel : Nat),
    (∀ j, j < k → ancestorAt rel (j + 1) ≠ ancestorAt rel j) →
    (∀ j, j < k → env.Stat (vendorLook rel importPath j) = .notExist ∨
      env.Stat (vendorLook rel importPath j) = .info false) →
    vendorWalk env ctx relative importPath (fuel + k) rel =
      vendorWalk env ctx relative importPath fuel (ancestorAt rel k) := by
  induction k with
  | zero => intro rel fuel _ _; rfl
  | succ k ih =>
    intro rel fuel hup hst
    have h0 : rel ≠ Join [rel, strDotDot] := by
      have := hup 0 (Nat.succ_pos k)
      simpa [ancestorAt, eq_comm] using this
    have hs0 := hst 0 (Nat.succ_pos k)
    have hrec := ih (Join [rel, strDotDot]) fuel
      (fun j hj => hup (j + 1) (Nat.succ_lt_succ hj))
      (fun j hj => hst (j + 1) (Nat.succ_lt_succ hj))
    have hfuel : fuel + (k + 1) = (fuel + k) + 1 := rfl
    rw [hfuel]
    simp only [vendorLook, ancestorAt] at hs0
    rcases hs0 with hs0 | hs0
    · simp only [vendorWalk, if_neg h0, hs0]
      exact hrec
    · simp only [vendorWalk, if_neg h0, hs0]
      exact hrec

/-- A walk that reaches the root within its fuel and meets no directory and no
stat failure on the way ends in `break`. -/
theorem vendorWalk_none (env : Env) (ctx : Context) (relative importPath : Path)
    (hstat : ∀ q c, env.Stat q ≠ .failed c)
    (n : Nat) : ∀ (rel : Path) (fuel : Nat), n < fuel →
    ancestorAt rel (n + 1) = ancestorAt rel n →
    (∀ k, k < n → env.Stat (vendorLook rel importPath k) ≠ .info true) →
    vendorWalk env ctx relative importPath fuel rel = .ret none := by
  induction n with
  | zero =>
    intro rel fuel hf hfix _
    obtain ⟨f, rfl⟩ : ∃ f, fuel = f + 1 := ⟨fuel - 1, by omega⟩
    have h0 : rel = Join [rel, strDotDot] := by simpa [ancestorAt, eq_comm] using hfix
    simp only [vendorWalk, if_pos h0]
  | succ n ih =>
    intro rel fuel hf hfix hno
    obtain ⟨f, rfl⟩ : ∃ f, fuel = f + 1 := ⟨fuel - 1, by omega⟩
    by_cases h0 : rel = Join [rel, strDotDot]
    · simp only [vendorWalk, if_pos h0]
    · have hrec := ih (Join [rel, strDotDot]) f (by omega) hfix
        (fun k hk => hno (k + 1) (Nat.succ_lt_succ hk))
      have hs0 := hno 0 (Nat.succ_pos n)
      simp only [vendorLook, ancestorAt] at hs0
      cases hs : env.Stat (Join [rel, strVendor, importPath]) with
      | notExist => simp only [vendorWalk, if_neg h0, hs]; exact hrec
      | failed c => exact absurd hs (hstat _ c)
      | info d =>
        cases d with
        | true => exact absurd hs hs0
        | false => simp only [vendorWalk, if_neg h0, hs]; exact hrec

/-- Without stat failures the scan of the roots returns the first root under
which the import path is a directory. -/
theorem gopathScan_eq_find (env : Env) (importPath : Path)
    (hstat : ∀ q c, env.Stat q ≠ .failed c) (l : List Path) :
    gopathScan env importPath l =
      match l.find? (fun g => decide (env.Stat (Join [g, importPath]) = .info true)) with
      | some g => .ret ⟨Join [g, importPath], g, none⟩
      | none => .ret ⟨[], [], some (.ErrNotInGOPATH (.plain importPath))⟩ := by
  induction l with
  | nil => rfl
  | cons g gs ih =>
    cases hs : env.Stat (Join [g, importPath]) with
    | notExist => simp [gopathScan, List.find?, hs, ih]
    | failed c => exact absurd hs (hstat _ c)
    | info d =>
      cases d with
      | true => simp [gopathScan, List.find?, hs]
      | false => simp [gopathScan, List.find?, hs, ih]

/-! ## Claims on `findImportDir` -/

/-- C10. For an import path equal to `builtin`, `unsafe` or `C`, `findImportDir`
returns `(Join(Goroot, importPath), Goroot, nil)` whatever the relative
directory, the list of roots, the fuel and the file system are. -/
theorem findImportDir_builtin (env : Env) (ctx : Context) (fuel : Nat)
    (relative importPath : Path)
    (h : importPath = strBuiltin ∨ importPath = strUnsafe ∨ importPath = strC) :
    findImportDir env ctx fuel relative importPath =
      .ret ⟨Join [ctx.Goroot, importPath], ctx.Goroot, none⟩ := by
  simp only [findImportDir, if_pos h]

theorem findImportDir_builtin_witness :
    findImportDir rootVendorEnv twoRootsCtx 0 "/proj".toList "unsafe".toList =
      .ret ⟨"/go/unsafe".toList, "/go".toList, none⟩ :=
  (findImportDir_builtin rootVendorEnv twoRootsCtx 0 "/proj".toList "unsafe".toList
    (by decide)).trans (by decide)

/-- C3. For a non-built-in import path and a file system on which every stat
succeeds or reports not-exists: when the relative directory is empty, or the
upward walk reaches the root (a folder equal to its parent) within the fuel
without meeting an existing `ancestor/vendor/importPath` directory,
`findImportDir` returns `(Join(g, p), g, nil)` for the first root `g` of
`GopathList` under which `p` is an existing directory, and
`ErrNotInGOPATH{p}` when there is no such root. -/
theorem findImportDir_workspace_fallback (env : Env) (ctx : Context) (fuel : Nat)
    (relative importPath : Path)
    (hb : ¬ (importPath = strBuiltin ∨ importPath = strUnsafe ∨ importPath = strC))
    (hstat : ∀ q c, env.Stat q ≠ .failed c)
    (hwalk : relative = [] ∨ ∃ n, n < fuel ∧
      ancestorAt relative (n + 1) = ancestorAt relative n ∧
      ∀ k, k < n → env.Stat (vendorLook relative importPath k) ≠ .info true) :
    findImportDir env ctx fuel relative importPath =
      match ctx.GopathList.find?
          (fun g => decide (env.Stat (Join [g, importPath]) = .info true)) with
      | some g => .ret ⟨Join [g, importPath], g, none⟩
      | none => .ret ⟨[], [], some (.ErrNotInGOPATH (.plain importPath))⟩ := by
  rw [← gopathScan_eq_find env importPath hstat]
  by_cases hrel : relative = []
  · subst hrel
    simp [findImportDir, if_neg hb]
  · rcases hwalk with h | ⟨n, hn, hfix, hno⟩
    · exact absurd h hrel
    · have hlen : relative.length ≠ 0 := by
        simpa [List.length_eq_zero] using hrel
      have hw := vendorWalk_none env ctx relative importPath hstat n relative fuel hn hfix hno
      simp only [findImportDir, if_neg hb, if_pos hlen, hw]

theorem statOf_not_failed (dirs files : List Path) (q : Path) (c : Nat) :
    statOf dirs files [] q ≠ .failed c := by
  unfold statOf
  split_ifs <;> simp_all

theorem findImportDir_workspace_fallback_witness :
    findImportDir twoRootsEnv twoRootsCtx 3 "/ws1/proj".toList "x/y".toList =
      .ret ⟨"/ws2/x/y".toList, "/ws2".toList, none⟩ :=
  (findImportDir_workspace_fallback twoRootsEnv twoRootsCtx 3 "/ws1/proj".toList "x/y".toList
    (by decide) (fun q c => statOf_not_failed _ _ q c)
    (Or.inr ⟨2, by decide, by decide, by decide⟩)).trans (by decide)

/-- C7, evaluated on the code.  With the stat of the candidate refused
(permission denied), `findImportDir` panics both in the scan of the roots
(empty relative directory, candidate `/ws/x`) and in the vendor walk
(candidate `/ws/proj/cmd/vendor/x`): no error is returned to the caller. -/
theorem findImportDir_stat_failure_panics :
    deniedRootEnv.Stat "/ws/x".toList = .failed 13 ∧
    findImportDir deniedRootEnv oneRootCtx 0 [] "x".toList = .panicked ∧
    deniedVendorEnv.Stat "/ws/proj/cmd/vendor/x".toList = .failed 13 ∧
    findImportDir deniedVendorEnv oneRootCtx 10 "/ws/proj/cmd".toList "x".toList = .panicked := by
  decide

/-- The walk returns from round `k` when that is the first round whose
candidate is an existing directory, every earlier candidate being absent or a
non-directory, and the root is not reached before. -/
theorem vendorWalk_match (env : Env) (ctx : Context) (relative importPath rel : Path)
    (fuel k : Nat) (hfuel : k < fuel)
    (hup : ∀ j, j ≤ k → ancestorAt rel (j + 1) ≠ ancestorAt rel j)
    (hnear : ∀ j, j < k → env.Stat (vendorLook rel importPath j) = .notExist ∨
      env.Stat (vendorLook rel importPath j) = .info false)
    (hdir : env.Stat (vendorLook rel importPath k) = .info true) :
    vendorWalk env ctx relative importPath fuel rel =
      match firstPrefixRoot env (vendorLook rel importPath k) ctx.GopathList with
      | some gopath => .ret (some ⟨vendorLook rel importPath k, gopath, none⟩)
      | none =>
        .ret (some ⟨[], [], some (.ErrNotInGOPATH (.importRelative importPath relative))⟩) := by
  obtain ⟨f, rfl⟩ : ∃ f, fuel = (f + 1) + k := ⟨fuel - 1 - k, by omega⟩
  rw [vendorWalk_skip env ctx relative importPath k rel (f + 1)
    (fun j hj => hup j (Nat.le_of_lt hj)) hnear]
  have h0 : ancestorAt rel k ≠ Join [ancestorAt rel k, strDotDot] := by
    have := hup k (Nat.le_refl k)
    rw [ancestorAt_succ] at this
    exact fun h => this h.symm
  simp only [vendorLook] at hdir ⊢
  simp only [vendorWalk, if_neg h0, hdir]

/-- C2, as amended.  Let the relative directory be non-empty and the import
path not built-in.  Let `A` be the folder reached after `k` steps up, such that
`A` and every nearer folder differ from their parent (none of them is the
file-system root), `A/vendor/p` is an existing directory, and at every nearer
folder the stat of `vendor/p` reports not-exists or a non-directory (a regular
file there is passed over).  If `g` is the first root of `GopathList` that is a
prefix of `A/vendor/p`, then `findImportDir` returns `(A/vendor/p, g, nil)`,
whatever exists under the roots. -/
theorem findImportDir_nearest_vendor (env : Env) (ctx : Context) (fuel : Nat)
    (relative importPath : Path) (k : Nat) (g : Path)
    (hb : ¬ (importPath = strBuiltin ∨ importPath = strUnsafe ∨ importPath = strC))
    (hrel : relative ≠ [])
    (hfuel : k < fuel)
    (hup : ∀ j, j ≤ k → ancestorAt relative (j + 1) ≠ ancestorAt relative j)
    (hnear : ∀ j, j < k → env.Stat (vendorLook relative importPath j) = .notExist ∨
      env.Stat (vendorLook relative importPath j) = .info false)
    (hdir : env.Stat (vendorLook relative importPath k) = .info true)
    (hg : ctx.GopathList.find?
      (fun r => env.FileHasPrefix (vendorLook relative importPath k) r) = some g) :
    findImportDir env ctx fuel relative importPath =
      .ret ⟨vendorLook relative importPath k, g, none⟩ := by
  have hlen : relative.length ≠ 0 := by simpa [List.length_eq_zero] using hrel
  have hw := vendorWalk_match env ctx relative importPath relative fuel k hfuel hup hnear hdir
  rw [firstPrefixRoot_eq_find, hg] at hw
  simp only [findImportDir, if_neg hb, if_pos hlen, hw]

theorem findImportDir_nearest_vendor_witness :
    findImportDir nestedVendorEnv oneRootCtx 2 "/ws/proj/cmd".toList "x".toList =
      .ret ⟨"/ws/proj/vendor/x".toList, "/ws".toList, none⟩ :=
  (findImportDir_nearest_vendor nestedVendorEnv oneRootCtx 2 "/ws/proj/cmd".toList "x".toList
    1 "/ws".toList (by decide) (by decide) (by decide) (by decide) (by decide) (by decide)
    (by decide)).trans (by decide)

/-- C2 as stated fails in two ways.  With the only vendored `x` at
`/vendor/x` and the root `/` in `GopathList`, the nearest folder with an
existing `vendor/x` directory is the file-system root, which the walk from
`/proj` never tests: the call ends in `ErrNotInGOPATH`.  With the stat of the
nearer candidate `/ws/proj/cmd/vendor/x` refused, the nearest existing
`vendor/x` directory is `/ws/proj/vendor/x` under the root `/ws`, and the call
panics. -/
theorem findImportDir_nearest_vendor_counterexample :
    (rootVendorEnv.Stat (vendorLook "/proj".toList "x".toList 0) = .notExist ∧
      vendorLook "/proj".toList "x".toList 1 = "/vendor/x".toList ∧
      rootVendorEnv.Stat "/vendor/x".toList = .info true ∧
      rootVendorEnv.FileHasPrefix "/vendor/x".toList "/".toList = true ∧
      findImportDir rootVendorEnv slashRootCtx 10 "/proj".toList "x".toList =
        .ret ⟨[], [], some (.ErrNotInGOPATH (.plain "x".toList))⟩) ∧
    (deniedVendorEnv.Stat (vendorLook "/ws/proj/cmd".toList "x".toList 0) = .failed 13 ∧
      vendorLook "/ws/proj/cmd".toList "x".toList 1 = "/ws/proj/vendor/x".toList ∧
      deniedVendorEnv.Stat "/ws/proj/vendor/x".toList = .info true ∧
      deniedVendorEnv.FileHasPrefix "/ws/proj/vendor/x".toList "/ws".toList = true ∧
      findImportDir deniedVendorEnv oneRootCtx 10 "/ws/proj/cmd".toList "x".toList =
        .panicked) := by
  decide

/-- C8, as amended.  Let the relative directory be non-empty and the import
path not built-in.  Let `A` be the folder reached after `k` steps up, such that
`A` and every nearer folder differ from their parent (none is the root),
`A/vendor/p` is an existing directory, and at every nearer folder the stat of
`vendor/p` reports not-exists or a non-directory.  If no root of `GopathList`
is a prefix of `A/vendor/p`, then `findImportDir` returns an `ErrNotInGOPATH`
error with empty directory and root, whatever farther ancestors and the roots
hold. -/
theorem findImportDir_vendor_outside_roots (env : Env) (ctx : Context) (fuel : Nat)
    (relative importPath : Path) (k : Nat)
    (hb : ¬ (importPath = strBuiltin ∨ importPath = strUnsafe ∨ importPath = strC))
    (hrel : relative ≠ [])
    (hfuel : k < fuel)
    (hup : ∀ j, j ≤ k → ancestorAt relative (j + 1) ≠ ancestorAt relative j)
    (hnear : ∀ j, j < k → env.Stat (vendorLook relative importPath j) = .notExist ∨
      env.Stat (vendorLook relative importPath j) = .info false)
    (hdir : env.Stat (vendorLook relative importPath k) = .info true)
    (hout : ∀ r, r ∈ ctx.GopathList →
      env.FileHasPrefix (vendorLook relative importPath k) r = false) :
    findImportDir env ctx fuel relative importPath =
      .ret ⟨[], [], some (.ErrNotInGOPATH (.importRelative importPath relative))⟩ := by
  have hlen : relative.length ≠ 0 := by simpa [List.length_eq_zero] using hrel
  have hw := vendorWalk_match env ctx relative importPath relative fuel k hfuel hup hnear hdir
  have hnone : ctx.GopathList.find?
      (fun r => env.FileHasPrefix (vendorLook relative importPath k) r) = none := by
    rw [List.find?_eq_none]
    intro r hr
    simp [hout r hr]
  rw [firstPrefixRoot_eq_find, hnone] at hw
  simp only [findImportDir, if_neg hb, if_pos hlen, hw]

theorem findImportDir_vendor_outside_roots_witness :
    findImportDir outsideVendorEnv oneRootCtx 2 "/other/proj/cmd".toList "x".toList =
      .ret ⟨[], [], some (.ErrNotInGOPATH
        (.importRelative "x".toList "/other/proj/cmd".toList))⟩ :=
  findImportDir_vendor_outside_roots outsideVendorEnv oneRootCtx 2 "/other/proj/cmd".toList
    "x".toList 1 (by decide) (by decide) (by decide) (by decide) (by decide) (by decide)
    (by decide)

/-- C8 as stated fails in two ways.  With the only vendored `x` at `/vendor/x`
and the single root `/ws` holding its own `x`, the nearest folder with an
existing `vendor/x` directory is the file-system root, which the walk from
`/proj` never tests: the call falls back to the roots and returns `/ws/x`.
With the stat of the nearer candidate `/other/proj/cmd/vendor/x` refused, the
nearest existing `vendor/x` directory is `/other/proj/vendor/x`, outside the
root `/ws`, and the call panics. -/
theorem findImportDir_vendor_outside_roots_counterexample :
    (rootVendorEnv.Stat (vendorLook "/proj".toList "x".toList 0) = .notExist ∧
      vendorLook "/proj".toList "x".toList 1 = "/vendor/x".toList ∧
      rootVendorEnv.Stat "/vendor/x".toList = .info true ∧
      rootVendorEnv.FileHasPrefix "/vendor/x".toList "/ws".toList = false ∧
      findImportDir rootVendorEnv oneRootCtx 10 "/proj".toList "x".toList =
        .ret ⟨"/ws/x".toList, "/ws".toList, none⟩) ∧
    (deniedOutsideEnv.Stat (vendorLook "/other/proj/cmd".toList "x".toList 0) = .failed 13 ∧
      vendorLook "/other/proj/cmd".toList "x".toList 1 = "/other/proj/vendor/x".toList ∧
      deniedOutsideEnv.Stat "/other/proj/vendor/x".toList = .info true ∧
      deniedOutsideEnv.FileHasPrefix "/other/proj/vendor/x".toList "/ws".toList = false ∧
      findImportDir deniedOutsideEnv oneRootCtx 10 "/other/proj/cmd".toList "x".toList =
        .panicked) := by
  decide

/-! ## Lemmas on `filepath.Clean` and `filepath.Join` -/

theorem intercalate_cons_cons (x y : List Char) (ys : List (List Char)) :
    List.intercalate ['/'] (x :: y :: ys) = x ++ '/' :: List.intercalate ['/'] (y :: ys) := by
  simp [List.intercalate, List.intersperse]

theorem intercalate_single (x : List Char) : List.intercalate ['/'] [x] = x := by
  simp [List.intercalate, List.intersperse]

theorem intercalate_append_single (xs : List (List Char)) (hxs : xs ≠ []) (y : List Char) :
    List.intercalate ['/'] (xs ++ [y]) = List.intercalate ['/'] xs ++ '/' :: y := by
  induction xs with
  | nil => exact absurd rfl hxs
  | cons x xs ih =>
    cases xs with
    | nil => simp [intercalate_cons_cons, intercalate_single]
    | cons z zs =>
      have h := ih (by simp)
      simp only [List.cons_append] at h ⊢
      rw [intercalate_cons_cons, h, intercalate_cons_cons]
      simp

theorem splitSlash_ne_nil (p : List Char) : splitSlash p ≠ [] := by
  cases p with
  | nil => simp [splitSlash]
  | cons c cs =>
    by_cases h : c = '/'
    · simp [splitSlash, h]
    · simp only [splitSlash, if_neg h]
      split <;> simp

theorem splitSlash_append_sep (a b : List Char) :
    splitSlash (a ++ '/' :: b) = splitSlash a ++ splitSlash b := by
  induction a with
  | nil => simp [splitSlash]
  | cons c cs ih =>
    by_cases h : c = '/'
    · simp [splitSlash, h, ih]
    · have hc : splitSlash (c :: (cs ++ '/' :: b)) =
          (match splitSlash (cs ++ '/' :: b) with
            | [] => [[c]]
            | e :: es => (c :: e) :: es) := by
        simp only [splitSlash, if_neg h]
      have hd : splitSlash (c :: cs) =
          (match splitSlash cs with
            | [] => [[c]]
            | e :: es => (c :: e) :: es) := by
        simp only [splitSlash, if_neg h]
      rw [List.cons_append, hc, hd, ih]
      cases hs : splitSlash cs with
      | nil => exact absurd hs (splitSlash_ne_nil cs)
      | cons e es => simp

theorem splitSlash_of_not_mem (x : List Char) (h : '/' ∉ x) : splitSlash x = [x] := by
  induction x with
  | nil => rfl
  | cons c cs ih =>
    have hc : c ≠ '/' := fun hc => h (by simp [hc])
    have hcs : '/' ∉ cs := fun hcs => h (by simp [hcs])
    simp [splitSlash, hc, ih hcs]

theorem splitSlash_intercalate (xs : List (List Char)) (hxs : xs ≠ [])
    (h : ∀ x, x ∈ xs → '/' ∉ x) : splitSlash (List.intercalate ['/'] xs) = xs := by
  induction xs with
  | nil => exact absurd rfl hxs
  | cons x xs ih =>
    cases xs with
    | nil =>
      rw [intercalate_single]
      exact splitSlash_of_not_mem x (h x (by simp))
    | cons y ys =>
      rw [intercalate_cons_cons, splitSlash_append_sep,
        splitSlash_of_not_mem x (h x (by simp)),
        ih (by simp) (fun z hz => h z (List.mem_cons_of_mem _ hz))]
      rfl

theorem cleanStep_elem (rooted : Bool) (st : List (List Char)) (e : List Char)
    (he : IsElem e) : cleanStep rooted st e = e :: st := by
  obtain ⟨h1, h2, h3, _⟩ := he
  simp [cleanStep, h1, h2, h3]

theorem foldl_cleanStep_elems (rooted : Bool) (xs : List (List Char)) :
    ∀ st : List (List Char), (∀ x, x ∈ xs → IsElem x) →
    xs.foldl (cleanStep rooted) st = xs.reverse ++ st := by
  induction xs with
  | nil => intro st _; rfl
  | cons x xs ih =>
    intro st h
    rw [List.foldl_cons, cleanStep_elem rooted st x (h x (by simp)),
      ih (x :: st) (fun z hz => h z (List.mem_cons_of_mem _ hz))]
    simp

theorem cleanStep_nil (rooted : Bool) (st : List (List Char)) :
    cleanStep rooted st [] = st := by
  simp [cleanStep]

/-- In a rooted path the output buffer holds proper elements only. -/
theorem cleanStep_rooted_elems (st : List (List Char)) (e : List Char)
    (hst : ∀ x, x ∈ st → IsElem x) (he : '/' ∉ e) :
    ∀ x, x ∈ cleanStep true st e → IsElem x := by
  intro x hx
  unfold cleanStep at hx
  by_cases h1 : e = [] ∨ e = ['.']
  · rw [if_pos h1] at hx; exact hst x hx
  · rw [if_neg h1] at hx
    by_cases h2 : e = ['.', '.']
    · rw [if_pos h2] at hx
      cases st with
      | nil => simp at hx
      | cons top rest =>
        have htop : top ≠ ['.', '.'] := (hst top (by simp)).2.2.1
        simp only [if_neg htop] at hx
        exact hst x (List.mem_cons_of_mem _ hx)
    · rw [if_neg h2] at hx
      rcases List.mem_cons.mp hx with rfl | hx
      · exact ⟨fun h => h1 (Or.inl h), fun h => h1 (Or.inr h), h2, he⟩
      · exact hst x hx

theorem splitSlash_not_mem (p : List Char) : ∀ e, e ∈ splitSlash p → '/' ∉ e := by
  induction p with
  | nil => intro e he; simp [splitSlash] at he; simp [he]
  | cons c cs ih =>
    intro e he
    by_cases h : c = '/'
    · simp only [splitSlash, if_pos h] at he
      rcases List.mem_cons.mp he with rfl | he
      · simp
      · exact ih e he
    · simp only [splitSlash, if_neg h] at he
      cases hs : splitSlash cs with
      | nil => exact absurd hs (splitSlash_ne_nil cs)
      | cons e0 es =>
        rw [hs] at he ih
        rcases List.mem_cons.mp he with rfl | he
        · have := ih e0 (by simp)
          intro hm
          rcases List.mem_cons.mp hm with hm | hm
          · exact h hm.symm
          · exact this hm
        · exact ih e (List.mem_cons_of_mem _ he)

theorem foldl_cleanStep_rooted_elems (l : List (List Char)) :
    ∀ st : List (List Char), (∀ x, x ∈ st → IsElem x) → (∀ e, e ∈ l → '/' ∉ e) →
    ∀ x, x ∈ l.foldl (cleanStep true) st → IsElem x := by
  induction l with
  | nil => intro st hst _ x hx; exact hst x hx
  | cons e es ih =>
    intro st hst hl
    rw [List.foldl_cons]
    exact ih _ (cleanStep_rooted_elems st e hst (hl e (by simp)))
      (fun z hz => hl z (List.mem_cons_of_mem _ hz))

theorem cleanStack_rooted_elems (p : Path) : ∀ x, x ∈ cleanStack true p → IsElem x :=
  foldl_cleanStep_rooted_elems (splitSlash p) [] (by simp) (splitSlash_not_mem p)

theorem foldl_cleanStep_length (rooted : Bool) (l : List (List Char)) :
    ∀ st : List (List Char), (l.foldl (cleanStep rooted) st).length ≤ st.length + l.length := by
  induction l with
  | nil => intro st; simp
  | cons e es ih =>
    intro st
    rw [List.foldl_cons]
    have h1 := ih (cleanStep rooted st e)
    have h2 : (cleanStep rooted st e).length ≤ st.length + 1 := by
      unfold cleanStep
      cases st with
      | nil => split_ifs <;> simp
      | cons top rest =>
        by_cases ht : top = ['.', '.'] <;> split_ifs <;> simp [ht] <;> omega
    simp only [List.length_cons]
    omega

theorem Clean_rooted (p : Path) (h : p.head? = some '/') :
    Clean p = render true (cleanStack true p) := by
  have hp : p ≠ [] := by
    intro hp; subst hp; simp at h
  simp [Clean, hp, h, cleanStack]

theorem Clean_unrooted (p : Path) (hp : p ≠ []) (h : p.head? ≠ some '/') :
    Clean p = render false (cleanStack false p) := by
  simp [Clean, hp, h, cleanStack]

theorem Join_pair (r s : Path) (hr : r ≠ []) : Join [r, s] = Clean (r ++ '/' :: s) := by
  simp [Join, hr, intercalate_cons_cons, intercalate_single]

theorem render_true_head (st : List (List Char)) : (render true st).head? = some '/' := by
  simp [render]

theorem render_true_ne_nil (st : List (List Char)) : render true st ≠ [] := by
  simp [render]

theorem head_append_of_ne_nil (r s : Path) (hr : r ≠ []) : (r ++ s).head? = r.head? := by
  cases r with
  | nil => exact absurd rfl hr
  | cons c cs => rfl

theorem cleanStack_append_sep (rooted : Bool) (r s : Path) :
    cleanStack rooted (r ++ '/' :: s) =
      (splitSlash s).foldl (cleanStep rooted) (cleanStack rooted r) := by
  simp [cleanStack, splitSlash_append_sep, List.foldl_append]

theorem splitSlash_dotdot : splitSlash strDotDot = [strDotDot] := by decide

theorem cleanStep_dotdot_rooted (st : List (List Char)) (hst : ∀ x, x ∈ st → IsElem x) :
    cleanStep true st strDotDot = st.tail := by
  cases st with
  | nil => simp [cleanStep, strDotDot]
  | cons top rest =>
    have htop : top ≠ ['.', '.'] := (hst top (by simp)).2.2.1
    simp [cleanStep, strDotDot, htop]

/-- The parent of a rooted folder: its cleaned form without the last element. -/
theorem Join_dotdot_rooted (r : Path) (h : r.head? = some '/') :
    Join [r, strDotDot] = render true (cleanStack true r).tail := by
  have hr : r ≠ [] := by
    intro hr; subst hr; simp at h
  rw [Join_pair r strDotDot hr, Clean_rooted _ (by rw [head_append_of_ne_nil r _ hr]; exact h),
    cleanStack_append_sep, splitSlash_dotdot]
  simp only [List.foldl_cons, List.foldl_nil]
  rw [cleanStep_dotdot_rooted _ (cleanStack_rooted_elems r)]

/-- The function `Clean` leaves the cleaned form of a rooted path as it is. -/
theorem cleanStack_render_true (st : List (List Char)) (hst : ∀ x, x ∈ st → IsElem x) :
    cleanStack true (render true st) = st := by
  by_cases hnil : st = []
  · subst hnil; decide
  · have hrev : st.reverse ≠ [] := by simpa using hnil
    have hsl : ∀ x, x ∈ st.reverse → '/' ∉ x := fun x hx => (hst x (by simpa using hx)).2.2.2
    have hsplit : splitSlash (render true st) = [] :: st.reverse := by
      simp only [render, if_true, splitSlash]
      rw [splitSlash_intercalate _ hrev hsl]
    rw [cleanStack, hsplit, List.foldl_cons, cleanStep_nil,
      foldl_cleanStep_elems true st.reverse [] (fun x hx => hst x (by simpa using hx))]
    simp

theorem Clean_render_true (st : List (List Char)) (hst : ∀ x, x ∈ st → IsElem x) :
    Clean (render true st) = render true st := by
  rw [Clean_rooted _ (render_true_head st), cleanStack_render_true st hst]

theorem Join_dotdot_render (st : List (List Char)) (hst : ∀ x, x ∈ st → IsElem x) :
    Join [render true st, strDotDot] = render true st.tail := by
  rw [Join_dotdot_rooted _ (render_true_head st), cleanStack_render_true st hst]

theorem elems_tail (st : List (List Char)) (hst : ∀ x, x ∈ st → IsElem x) :
    ∀ x, x ∈ st.tail → IsElem x := fun x hx => hst x (List.mem_of_mem_tail hx)

theorem elems_drop (st : List (List Char)) (hst : ∀ x, x ∈ st → IsElem x) (k : Nat) :
    ∀ x, x ∈ st.drop k → IsElem x := fun x hx => hst x (List.mem_of_mem_drop hx)

theorem render_true_length_cons (e : List Char) (rest : List (List Char)) (he : e ≠ []) :
    (render true rest).length < (render true (e :: rest)).length := by
  have hpos : 0 < e.length := List.length_pos.mpr he
  by_cases hnil : rest = []
  · subst hnil
    simp [render, intercalate_single, List.intercalate]
    omega
  · have hrev : rest.reverse ≠ [] := by simpa using hnil
    simp only [render, if_true, List.reverse_cons, List.length_cons]
    rw [intercalate_append_single _ hrev]
    simp

theorem render_true_tail_ne (st : List (List Char)) (hst : ∀ x, x ∈ st → IsElem x)
    (hne : st ≠ []) : render true st ≠ render true st.tail := by
  cases st with
  | nil => exact absurd rfl hne
  | cons e rest =>
    intro h
    have hl := render_true_length_cons e rest (hst e (by simp)).1
    rw [h] at hl
    simp at hl

theorem ancestorAt_render (k : Nat) : ∀ (st : List (List Char)),
    (∀ x, x ∈ st → IsElem x) → ancestorAt (render true st) k = render true (st.drop k) := by
  induction k with
  | zero => intro st _; rfl
  | succ k ih =>
    intro st hst
    simp only [ancestorAt]
    rw [Join_dotdot_render st hst, ih st.tail (elems_tail st hst)]
    simp

theorem cleanStack_rooted_length (r : Path) (h : r.head? = some '/') :
    (cleanStack true r).length + 1 ≤ (splitSlash r).length := by
  cases r with
  | nil => simp at h
  | cons c cs =>
    have hc : c = '/' := by simpa using h
    subst hc
    simp only [cleanStack, splitSlash, if_true, List.foldl_cons, cleanStep_nil,
      List.length_cons]
    have := foldl_cleanStep_length true (splitSlash cs) []
    simp at this ⊢
    exact this

/-! ## Termination of the vendor walk -/

theorem vendorWalk_clean_terminates (env : Env) (ctx : Context) (relative importPath : Path)
    (st : List (List Char)) : (∀ x, x ∈ st → IsElem x) → ∀ fuel, st.length < fuel →
    vendorWalk env ctx relative importPath fuel (render true st) ≠ .outOfFuel := by
  induction st with
  | nil =>
    intro hst fuel hf
    obtain ⟨f, rfl⟩ : ∃ f, fuel = f + 1 := ⟨fuel - 1, by omega⟩
    have h0 : render true [] = Join [render true [], strDotDot] := by
      rw [Join_dotdot_render [] hst]; rfl
    simp only [vendorWalk, if_pos h0]
    simp
  | cons e rest ih =>
    intro hst fuel hf
    obtain ⟨f, rfl⟩ : ∃ f, fuel = f + 1 := ⟨fuel - 1, by omega⟩
    have hrest : ∀ x, x ∈ rest → IsElem x := fun x hx => hst x (List.mem_cons_of_mem _ hx)
    have hj : Join [render true (e :: rest), strDotDot] = render true rest := by
      rw [Join_dotdot_render _ hst]; rfl
    have hrec := ih hrest f (by simp at hf; omega)
    simp only [vendorWalk, hj]
    split_ifs
    · simp
    · split
      · exact hrec
      · simp
      · exact hrec
      · split <;> simp

/-- A walk that ends in `break` has reached a folder equal to its parent, having
passed only folders that differ from their parent and whose candidate is
absent or a non-directory. -/
theorem vendorWalk_ret_none (env : Env) (ctx : Context) (relative importPath : Path)
    (fuel : Nat) : ∀ rel : Path,
    vendorWalk env ctx relative importPath fuel rel = .ret none →
    ∃ n, n < fuel ∧ ancestorAt rel (n + 1) = ancestorAt rel n ∧
      ∀ k, k < n → ancestorAt rel (k + 1) ≠ ancestorAt rel k ∧
        (env.Stat (vendorLook rel importPath k) = .notExist ∨
          env.Stat (vendorLook rel importPath k) = .info false) := by
  induction fuel with
  | zero => intro rel h; simp [vendorWalk] at h
  | succ f ih =>
    intro rel h
    by_cases h0 : rel = Join [rel, strDotDot]
    · refine ⟨0, Nat.succ_pos f, ?_, fun k hk => absurd hk (Nat.not_lt_zero k)⟩
      simpa [ancestorAt] using h0.symm
    · simp only [vendorWalk, if_neg h0] at h
      have key : vendorWalk env ctx relative importPath f (Join [rel, strDotDot]) = .ret none ∧
          (env.Stat (Join [rel, strVendor, importPath]) = .notExist ∨
            env.Stat (Join [rel, strVendor, importPath]) = .info false) := by
        cases hs : env.Stat (Join [rel, strVendor, importPath]) with
        | notExist => rw [hs] at h; exact ⟨h, Or.inl rfl⟩
        | failed c => rw [hs] at h; simp at h
        | info d =>
          cases d with
          | false => rw [hs] at h; exact ⟨h, Or.inr rfl⟩
          | true =>
            rw [hs] at h
            simp only at h
            split at h <;> simp at h
      obtain ⟨n, hn, hfix, hall⟩ := ih _ key.1
      refine ⟨n + 1, Nat.succ_lt_succ hn, hfix, ?_⟩
      intro k hk
      cases k with
      | zero =>
        refine ⟨?_, key.2⟩
        simpa [ancestorAt, eq_comm] using h0
      | succ k => exact hall k (Nat.lt_of_succ_lt_succ hk)

theorem vendorWalk_absolute_ne_outOfFuel (env : Env) (ctx : Context)
    (relative importPath rel : Path) (fuel : Nat)
    (habs : rel.head? = some '/') (hfuel : (splitSlash rel).length ≤ fuel) :
    vendorWalk env ctx relative importPath fuel rel ≠ .outOfFuel := by
  have hlen := cleanStack_rooted_length rel habs
  have hsplit2 : 2 ≤ (splitSlash rel).length := by
    cases rel with
    | nil => simp at habs
    | cons c cs =>
      have hc : c = '/' := by simpa using habs
      subst hc
      have := List.length_pos.mpr (splitSlash_ne_nil cs)
      simp only [splitSlash, if_true, List.length_cons]
      omega
  obtain ⟨f, rfl⟩ : ∃ f, fuel = f + 1 := ⟨fuel - 1, by omega⟩
  have hj := Join_dotdot_rooted rel habs
  have hrec := vendorWalk_clean_terminates env ctx relative importPath
    (cleanStack true rel).tail (elems_tail _ (cleanStack_rooted_elems rel)) f
    (by simp only [List.length_tail]; omega)
  simp only [vendorWalk, hj]
  split_ifs
  · simp
  · split
    · exact hrec
    · simp
    · exact hrec
    · split <;> simp

/-! ## The walk from a folder that is not absolute -/

theorem foldl_cleanStep_dotdots (i : Nat) : ∀ j : Nat,
    (List.replicate i strDotDot).foldl (cleanStep false) (List.replicate j strDotDot) =
      List.replicate (j + i) strDotDot := by
  induction i with
  | zero => intro j; rfl
  | succ i ih =>
    intro j
    have hstep : cleanStep false (List.replicate j strDotDot) strDotDot =
        List.replicate (j + 1) strDotDot := by
      cases j with
      | zero => simp [cleanStep, strDotDot]
      | succ j => simp [cleanStep, strDotDot, List.replicate_succ]
    rw [List.replicate_succ, List.foldl_cons, hstep, ih (j + 1)]
    congr 1
    omega

theorem dotDots_succ (m : Nat) (hm : 0 < m) :
    dotDots (m + 1) = dotDots m ++ '/' :: strDotDot := by
  have hne : List.replicate m strDotDot ≠ [] := by
    cases m with
    | zero => omega
    | succ m => simp [List.replicate_succ]
  rw [dotDots, List.replicate_succ', intercalate_append_single _ hne]
  rfl

theorem dotDots_ne_nil (m : Nat) (hm : 0 < m) : dotDots m ≠ [] := by
  cases m with
  | zero => omega
  | succ m =>
    cases m with
    | zero => decide
    | succ m =>
      rw [dotDots_succ (m + 1) (Nat.succ_pos m)]
      simp

theorem dotDots_head (m : Nat) (hm : 0 < m) : (dotDots m).head? = some '.' := by
  induction m with
  | zero => omega
  | succ m ih =>
    cases m with
    | zero => decide
    | succ m =>
      rw [dotDots_succ (m + 1) (Nat.succ_pos m),
        head_append_of_ne_nil _ _ (dotDots_ne_nil (m + 1) (Nat.succ_pos m))]
      exact ih (Nat.succ_pos m)

/-- The parent of `../..` is `../../..`: an unrooted walk keeps growing. -/
theorem Join_dotDots (m : Nat) (hm : 0 < m) :
    Join [dotDots m, strDotDot] = dotDots (m + 1) := by
  have hne := dotDots_ne_nil m hm
  have hrep : List.replicate m strDotDot ≠ [] := by
    cases m with
    | zero => omega
    | succ m => simp [List.replicate_succ]
  have hunrooted : (dotDots m ++ '/' :: strDotDot).head? ≠ some '/' := by
    rw [head_append_of_ne_nil _ _ hne, dotDots_head m hm]
    decide
  have hsplit : splitSlash (dotDots m) = List.replicate m strDotDot := by
    rw [dotDots, splitSlash_intercalate _ hrep]
    intro x hx
    rw [List.eq_of_mem_replicate hx]
    decide
  rw [Join_pair _ _ hne, Clean_unrooted _ (by simp) hunrooted, cleanStack_append_sep,
    splitSlash_dotdot, cleanStack, hsplit]
  have h0 := foldl_cleanStep_dotdots m 0
  simp only [List.replicate_zero, Nat.zero_add] at h0
  rw [h0]
  have h1 : List.foldl (cleanStep false) (List.replicate m strDotDot) [strDotDot] =
      List.replicate (m + 1) strDotDot := by
    have := foldl_cleanStep_dotdots 1 m
    simpa using this
  rw [h1]
  have hne1 : List.replicate (m + 1) strDotDot ≠ [] := by simp [List.replicate_succ]
  simp only [render, Bool.false_eq_true, if_false, if_neg hne1, List.reverse_replicate]
  rfl

theorem dotDots_lt (m : Nat) (hm : 0 < m) : (dotDots m).length < (dotDots (m + 1)).length := by
  rw [dotDots_succ m hm]
  simp

theorem isElem_a : IsElem ['a'] := by
  refine ⟨by decide, by decide, by decide, by decide⟩

theorem deepFolder_elems (m : Nat) : ∀ x, x ∈ List.replicate m ['a'] → IsElem x := by
  intro x hx
  rw [List.eq_of_mem_replicate hx]
  exact isElem_a

theorem cleanStack_dotDots (m : Nat) (hm : 0 < m) :
    cleanStack false (dotDots m) = List.replicate m strDotDot := by
  have hrep : List.replicate m strDotDot ≠ [] := by
    cases m with
    | zero => omega
    | succ m => simp [List.replicate_succ]
  have hsplit : splitSlash (dotDots m) = List.replicate m strDotDot := by
    rw [dotDots, splitSlash_intercalate _ hrep]
    intro x hx
    rw [List.eq_of_mem_replicate hx]
    decide
  have h0 := foldl_cleanStep_dotdots m 0
  simp only [List.replicate_zero, Nat.zero_add] at h0
  rw [cleanStack, hsplit, h0]

theorem dotDots_length (m : Nat) (hm : 0 < m) : (dotDots m).length + 1 = 3 * m := by
  induction m with
  | zero => omega
  | succ m ih =>
    cases m with
    | zero => rfl
    | succ m =>
      have := ih (Nat.succ_pos m)
      rw [dotDots_succ (m + 1) (Nat.succ_pos m)]
      simp only [List.length_append, List.length_cons, strDotDot, List.length_nil]
      omega

theorem isElem_vendor : IsElem strVendor := by
  refine ⟨by decide, by decide, by decide, by decide⟩

theorem isElem_x : IsElem ['x'] := by
  refine ⟨by decide, by decide, by decide, by decide⟩

/-- The candidate tested at the folder `../..`: the name `../../vendor/x`. -/
theorem vendorLook_dotDots (m : Nat) (hm : 0 < m) :
    Join [dotDots m, strVendor, ['x']] = (dotDots m ++ '/' :: strVendor) ++ '/' :: ['x'] := by
  have hne := dotDots_ne_nil m hm
  have hrep : List.replicate m strDotDot ≠ [] := by
    cases m with
    | zero => omega
    | succ m => simp [List.replicate_succ]
  have hjoin : Join [dotDots m, strVendor, ['x']] =
      Clean (dotDots m ++ '/' :: (strVendor ++ '/' :: ['x'])) := by
    simp [Join, hne, intercalate_cons_cons, intercalate_single]
  have hunrooted : (dotDots m ++ '/' :: (strVendor ++ '/' :: ['x'])).head? ≠ some '/' := by
    rw [head_append_of_ne_nil _ _ hne, dotDots_head m hm]
    decide
  have hsplit : splitSlash (strVendor ++ '/' :: ['x']) = [strVendor, ['x']] := by decide
  rw [hjoin, Clean_unrooted _ (by simp) hunrooted, cleanStack_append_sep, hsplit,
    cleanStack_dotDots m hm]
  simp only [List.foldl_cons, List.foldl_nil]
  rw [cleanStep_elem false _ strVendor isElem_vendor,
    cleanStep_elem false _ ['x'] isElem_x]
  have hst : (['x'] :: strVendor :: List.replicate m strDotDot) ≠ [] := by simp
  simp only [render, Bool.false_eq_true, if_false, if_neg hst, List.reverse_cons,
    List.reverse_replicate, List.append_assoc]
  have h1 : List.replicate m strDotDot ++ ([strVendor] ++ [['x']]) =
      (List.replicate m strDotDot ++ [strVendor]) ++ [['x']] := by simp
  rw [h1, intercalate_append_single _ (by simp), intercalate_append_single _ hrep]
  simp [dotDots]

theorem vendorLook_dotDots_length (m : Nat) (hm : 0 < m) :
    (Join [dotDots m, strVendor, ['x']]).length = 3 * m + 8 := by
  have := dotDots_length m hm
  rw [vendorLook_dotDots m hm]
  simp only [List.length_append, List.length_cons, strVendor, List.length_nil]
  omega

theorem dotDots_ne_succ (m : Nat) (hm : 0 < m) : dotDots m ≠ dotDots (m + 1) := by
  intro h
  have := dotDots_lt m hm
  rw [← h] at this
  exact Nat.lt_irrefl _ this

/-- A round at `../..` whose candidate is shorter than `PATH_MAX` goes on to the
parent. -/
theorem vendorWalk_pathMax_step (ctx : Context) (relative : Path) (f m : Nat) (hm : 0 < m)
    (hlen : 3 * m + 8 < 4096) :
    vendorWalk pathMaxEnv ctx relative ['x'] (f + 1) (dotDots m) =
      vendorWalk pathMaxEnv ctx relative ['x'] f (dotDots (m + 1)) := by
  have hst : pathMaxEnv.Stat (Join [dotDots m, strVendor, ['x']]) = .notExist := by
    have hl := vendorLook_dotDots_length m hm
    have : ¬ 4096 ≤ (Join [dotDots m, strVendor, ['x']]).length := by omega
    simp only [pathMaxEnv, if_neg this]
  simp only [vendorWalk, Join_dotDots m hm, if_neg (dotDots_ne_succ m hm), hst]

/-- A round at `../..` whose candidate reaches `PATH_MAX` panics. -/
theorem vendorWalk_pathMax_panics (ctx : Context) (relative : Path) (f m : Nat) (hm : 0 < m)
    (hlen : 4096 ≤ 3 * m + 8) :
    vendorWalk pathMaxEnv ctx relative ['x'] (f + 1) (dotDots m) = .panicked := by
  have hst : pathMaxEnv.Stat (Join [dotDots m, strVendor, ['x']]) = .failed 36 := by
    have hl := vendorLook_dotDots_length m hm
    have : 4096 ≤ (Join [dotDots m, strVendor, ['x']]).length := by omega
    simp only [pathMaxEnv, if_pos this]
  simp only [vendorWalk, Join_dotDots m hm, if_neg (dotDots_ne_succ m hm), hst]

theorem vendorWalk_pathMax_chain (ctx : Context) (relative : Path) (j : Nat) :
    ∀ m f, 0 < m → m + j = 1363 →
    vendorWalk pathMaxEnv ctx relative ['x'] (f + j + 1) (dotDots m) = .panicked := by
  induction j with
  | zero =>
    intro m f hm hmj
    exact vendorWalk_pathMax_panics ctx relative f m hm (by omega)
  | succ j ih =>
    intro m f hm hmj
    have hstep := vendorWalk_pathMax_step ctx relative (f + j + 1) m hm (by omega)
    have hfuel : f + (j + 1) + 1 = (f + j + 1) + 1 := by omega
    rw [hfuel, hstep]
    exact ih (m + 1) f (Nat.succ_pos m) (by omega)

theorem vendorWalk_pathMax_short (ctx : Context) (relative : Path) (j : Nat) :
    ∀ m, 0 < m → m + j ≤ 1363 →
    vendorWalk pathMaxEnv ctx relative ['x'] j (dotDots m) = .outOfFuel := by
  induction j with
  | zero => intro m _ _; rfl
  | succ j ih =>
    intro m hm hmj
    rw [vendorWalk_pathMax_step ctx relative j m hm (by omega)]
    exact ih (m + 1) (Nat.succ_pos m) (by omega)

/-- The first two rounds from `proj`: the folders `proj` and `.`, then `..`. -/
theorem vendorWalk_pathMax_proj (ctx : Context) (f : Nat) :
    vendorWalk pathMaxEnv ctx "proj".toList ['x'] (f + 2) "proj".toList =
      vendorWalk pathMaxEnv ctx "proj".toList ['x'] f (dotDots 1) := by
  have h1 : Join ["proj".toList, strDotDot] = ['.'] := by decide
  have h0 : "proj".toList ≠ (['.'] : Path) := by decide
  have hs1 : pathMaxEnv.Stat (Join ["proj".toList, strVendor, ['x']]) = .notExist := by decide
  have h2 : Join [['.'], strDotDot] = dotDots 1 := by decide
  have h3 : (['.'] : Path) ≠ dotDots 1 := by decide
  have hs2 : pathMaxEnv.Stat (Join [['.'], strVendor, ['x']]) = .notExist := by decide
  have hfuel : f + 2 = (f + 1) + 1 := rfl
  rw [hfuel]
  simp only [vendorWalk, h1, if_neg h0, hs1, h2, if_neg h3, hs2]

theorem ancestorAt_dotDots (k : Nat) : ∀ m, 0 < m →
    ancestorAt (dotDots m) k = dotDots (m + k) := by
  induction k with
  | zero => intro m _; rfl
  | succ k ih =>
    intro m hm
    simp only [ancestorAt]
    rw [Join_dotDots m hm, ih (m + 1) (Nat.succ_pos m)]
    congr 1
    omega

/-- From the folder `proj` no folder of the walk equals its parent. -/
theorem ancestorAt_proj_ne (n : Nat) :
    ancestorAt "proj".toList (n + 1) ≠ ancestorAt "proj".toList n := by
  have h2 : ∀ k, ancestorAt "proj".toList (k + 2) = dotDots (k + 1) := by
    intro k
    have h1 : Join ["proj".toList, strDotDot] = ['.'] := by decide
    have h3 : Join [['.'], strDotDot] = dotDots 1 := by decide
    simp only [ancestorAt, h1, h3]
    rw [ancestorAt_dotDots k 1 Nat.one_pos]
    congr 1
    omega
  cases n with
  | zero => decide
  | succ n =>
    cases n with
    | zero => decide
    | succ n =>
      rw [h2 (n + 1), h2 n]
      exact (dotDots_ne_succ (n + 1) (Nat.succ_pos n)).symm

theorem gopathScan_ne_outOfFuel (env : Env) (importPath : Path) (l : List Path) :
    gopathScan env importPath l ≠ .outOfFuel := by
  induction l with
  | nil => simp [gopathScan]
  | cons g gs ih =>
    simp only [gopathScan]
    split
    · exact ih
    · simp
    · exact ih
    · simp

theorem vendorWalk_quiet (env : Env) (ctx : Context) (relative importPath : Path)
    (hq : ∀ q, env.Stat q = .notExist ∨ env.Stat q = .info false) (fuel : Nat) :
    ∀ rel, vendorWalk env ctx relative importPath fuel rel = .ret none ∨
      vendorWalk env ctx relative importPath fuel rel = .outOfFuel := by
  induction fuel with
  | zero => intro rel; exact Or.inr rfl
  | succ f ih =>
    intro rel
    by_cases h0 : rel = Join [rel, strDotDot]
    · left; simp only [vendorWalk, if_pos h0]
    · rcases hq (Join [rel, strVendor, importPath]) with hs | hs
      · simp only [vendorWalk, if_neg h0, hs]; exact ih _
      · simp only [vendorWalk, if_neg h0, hs]; exact ih _

/-! ## Claim on the bound of the vendor walk -/

/-- C9, as amended.  For a relative directory that is absolute (it starts with
`/`) and any import path, the upward walk ends within as many rounds as the
directory has elements between separators, one folder being examined a round:
with that much fuel neither the walk nor `findImportDir` runs out.  The walk has
no loop limit of its own.  When it ends without a return from inside the loop,
it has reached a folder equal to its parent, every folder before it differing
from its parent and having an absent or non-directory candidate; and it does
end that way when no candidate is a directory and no stat fails. -/
theorem vendorWalk_bounded_absolute (env : Env) (ctx : Context) (fuel : Nat)
    (relative importPath : Path)
    (habs : relative.head? = some '/')
    (hfuel : (splitSlash relative).length ≤ fuel) :
    vendorWalk env ctx relative importPath fuel relative ≠ .outOfFuel ∧
    findImportDir env ctx fuel relative importPath ≠ .outOfFuel ∧
    (vendorWalk env ctx relative importPath fuel relative = .ret none →
      ∃ n, n < fuel ∧ ancestorAt relative (n + 1) = ancestorAt relative n ∧
        ∀ k, k < n → ancestorAt relative (k + 1) ≠ ancestorAt relative k ∧
          (env.Stat (vendorLook relative importPath k) = .notExist ∨
            env.Stat (vendorLook relative importPath k) = .info false)) ∧
    ((∀ q, env.Stat q = .notExist ∨ env.Stat q = .info false) →
      vendorWalk env ctx relative importPath fuel relative = .ret none) := by
  have hw := vendorWalk_absolute_ne_outOfFuel env ctx relative importPath relative fuel
    habs hfuel
  refine ⟨hw, ?_, vendorWalk_ret_none env ctx relative importPath fuel relative, ?_⟩
  · unfold findImportDir
    split_ifs
    · simp
    · split
      · simp
      · exact gopathScan_ne_outOfFuel env importPath ctx.GopathList
      · simp
      · rename_i h; exact absurd h hw
    · exact gopathScan_ne_outOfFuel env importPath ctx.GopathList
  · intro hq
    rcases vendorWalk_quiet env ctx relative importPath hq fuel relative with h | h
    · exact h
    · exact absurd h hw

theorem vendorWalk_bounded_absolute_witness :
    vendorWalk twoRootsEnv twoRootsCtx "/ws1/proj".toList "x/y".toList 3 "/ws1/proj".toList
      ≠ .outOfFuel :=
  (vendorWalk_bounded_absolute twoRootsEnv twoRootsCtx 3 "/ws1/proj".toList "x/y".toList
    (by decide) (by decide)).1

/-- C9 as stated fails.  On a file system where nothing exists and names of
4096 bytes or more are refused (`PATH_MAX`), the walk from the relative
directory `proj` goes through `.`, `..`, `../..` and so on: no folder on the
way equals its parent, 1364 rounds do not end it, and in round 1365 the stat of
the candidate `../ ... /vendor/x` of 4097 bytes fails and `findImportDir`
panics; so with no match found the walk does not end at a folder equal to its
parent.  And the rounds are not counted against the loop limit: with
`looplimit` 1 the walk from `/ws/a/x` is still running after `looplimit + 1`
rounds and ends at the root in the fourth. -/
theorem vendorWalk_bounded_counterexample :
    findImportDir pathMaxEnv oneRootCtx 1365 "proj".toList "x".toList = .panicked ∧
    (∀ fuel, 1365 ≤ fuel →
      findImportDir pathMaxEnv oneRootCtx fuel "proj".toList "x".toList = .panicked) ∧
    vendorWalk pathMaxEnv oneRootCtx "proj".toList "x".toList 1364 "proj".toList
      = .outOfFuel ∧
    (¬ ∃ n, ancestorAt "proj".toList (n + 1) = ancestorAt "proj".toList n) ∧
    lowLimitEnv.looplimit = 1 ∧
    vendorWalk lowLimitEnv oneRootCtx "/ws/a/x".toList "y".toList
      (lowLimitEnv.looplimit + 1) "/ws/a/x".toList = .outOfFuel ∧
    vendorWalk lowLimitEnv oneRootCtx "/ws/a/x".toList "y".toList 4 "/ws/a/x".toList
      = .ret none := by
  have hx : "x".toList = ['x'] := rfl
  have hb : ¬ ((['x'] : Path) = strBuiltin ∨ (['x'] : Path) = strUnsafe ∨
      (['x'] : Path) = strC) := by decide
  have hlen : "proj".toList.length ≠ 0 := by decide
  have hpanic : ∀ f, vendorWalk pathMaxEnv oneRootCtx "proj".toList ['x'] (f + 1365)
      "proj".toList = .panicked := by
    intro f
    have h1 : f + 1365 = (f + 1362 + 1) + 2 := by omega
    rw [h1, vendorWalk_pathMax_proj]
    exact vendorWalk_pathMax_chain oneRootCtx "proj".toList 1362 1 f Nat.one_pos rfl
  have hfid : ∀ f, findImportDir pathMaxEnv oneRootCtx (f + 1365) "proj".toList ['x']
      = .panicked := by
    intro f
    simp only [findImportDir, if_neg hb, if_pos hlen, hpanic f]
  rw [hx]
  refine ⟨?_, ?_, ?_, ?_, rfl, by decide, by decide⟩
  · have := hfid 0
    simpa using this
  · intro fuel hfuel
    obtain ⟨f, rfl⟩ : ∃ f, fuel = f + 1365 := ⟨fuel - 1365, by omega⟩
    exact hfid f
  · have h1 : (1364 : Nat) = 1362 + 2 := rfl
    rw [h1, vendorWalk_pathMax_proj]
    exact vendorWalk_pathMax_short oneRootCtx "proj".toList 1362 1 Nat.one_pos (by omega)
  · rintro ⟨n, hn⟩
    exact ancestorAt_proj_ne n hn

/-! ## Lemmas on `findRoot` -/

theorem rootFolderAt_succ (folder : Path) (k : Nat) :
    rootFolderAt folder (k + 1) = Clean (Join [rootFolderAt folder k, strDotDot]) := by
  induction k generalizing folder with
  | zero => rfl
  | succ k ih =>
    have h := ih (Clean (Join [folder, strDotDot]))
    simpa [rootFolderAt] using h

/-- The three ways the loop of `findRoot` can end, with the round in which it does. -/
theorem findRootLoop_cases (env : Env) (vendorPath : Path) (n : Nat) : ∀ folder : Path,
    (∃ k, k < n ∧ (∀ j, j < k → RootContinues env folder vendorPath j) ∧
      env.Stat (markerAt folder vendorPath k) ≠ .notExist ∧
      findRootLoop env vendorPath n folder = .ret (rootFolderAt folder k, none)) ∨
    (∃ k, k < n ∧ (∀ j, j < k → RootContinues env folder vendorPath j) ∧
      env.Stat (markerAt folder vendorPath k) = .notExist ∧
      rootFolderAt folder (k + 1) = rootFolderAt folder k ∧
      findRootLoop env vendorPath n folder = .ret ([], some .ErrMissingVendorFile)) ∨
    ((∀ j, j < n → RootContinues env folder vendorPath j) ∧
      findRootLoop env vendorPath n folder = .panicked) := by
  induction n with
  | zero =>
    intro folder
    exact Or.inr (Or.inr ⟨fun j hj => absurd hj (Nat.not_lt_zero j), rfl⟩)
  | succ n ih =>
    intro folder
    by_cases hs : env.Stat (Join [folder, vendorPath]) = .notExist
    · by_cases hroot : Clean (Join [folder, strDotDot]) = folder
      · refine Or.inr (Or.inl ⟨0, Nat.succ_pos n, fun j hj => absurd hj (Nat.not_lt_zero j),
          hs, hroot, ?_⟩)
        simp only [findRootLoop, hs, if_pos hroot]
      · have hstep : findRootLoop env vendorPath (n + 1) folder =
            findRootLoop env vendorPath n (Clean (Join [folder, strDotDot])) := by
          simp only [findRootLoop, hs, if_neg hroot]
        have hc0 : RootContinues env folder vendorPath 0 := ⟨hs, hroot⟩
        have hshift : ∀ k, (∀ j, j < k →
            RootContinues env (Clean (Join [folder, strDotDot])) vendorPath j) →
            ∀ j, j < k + 1 → RootContinues env folder vendorPath j := by
          intro k hk j hj
          cases j with
          | zero => exact hc0
          | succ j => exact hk j (Nat.lt_of_succ_lt_succ hj)
        rcases ih (Clean (Join [folder, strDotDot])) with
          ⟨k, hk, hcont, hst, hres⟩ | ⟨k, hk, hcont, hst, hfix, hres⟩ | ⟨hcont, hres⟩
        · exact Or.inl ⟨k + 1, Nat.succ_lt_succ hk, hshift k hcont, hst, hstep.trans hres⟩
        · exact Or.inr (Or.inl ⟨k + 1, Nat.succ_lt_succ hk, hshift k hcont, hst, hfix,
            hstep.trans hres⟩)
        · exact Or.inr (Or.inr ⟨hshift n hcont, hstep.trans hres⟩)
    · refine Or.inl ⟨0, Nat.succ_pos n, fun j hj => absurd hj (Nat.not_lt_zero j), hs, ?_⟩
      cases h : env.Stat (Join [folder, vendorPath]) with
      | notExist => exact absurd h hs
      | failed c => simp only [findRootLoop, rootFolderAt, h]
      | info d => simp only [findRootLoop, rootFolderAt, h]

/-- The loop returns the folder of the first round that does not go on, when
the marker is not reported absent there. -/
theorem findRootLoop_found (env : Env) (vendorPath folder : Path) (n k : Nat) (hk : k < n)
    (hcont : ∀ j, j < k → RootContinues env folder vendorPath j)
    (hst : env.Stat (markerAt folder vendorPath k) ≠ .notExist) :
    findRootLoop env vendorPath n folder = .ret (rootFolderAt folder k, none) := by
  rcases findRootLoop_cases env vendorPath n folder with
    ⟨i, _, hc, hs, hres⟩ | ⟨i, _, hc, hs, hfix, _⟩ | ⟨hc, _⟩
  · rcases Nat.lt_trichotomy i k with h | h | h
    · exact absurd (hcont i h).1 hs
    · rw [← h]; exact hres
    · exact absurd (hc k h).1 hst
  · rcases Nat.lt_trichotomy i k with h | h | h
    · exact absurd hfix (hcont i h).2
    · rw [h] at hs; exact absurd hs hst
    · exact absurd (hc k h).1 hst
  · exact absurd (hc k hk).1 hst

/-- The loop returns `ErrMissingVendorFile` when the first round that does not
go on is at a folder equal to its parent, with the marker reported absent. -/
theorem findRootLoop_missing (env : Env) (vendorPath folder : Path) (n k : Nat) (hk : k < n)
    (hcont : ∀ j, j < k → RootContinues env folder vendorPath j)
    (hst : env.Stat (markerAt folder vendorPath k) = .notExist)
    (hfix : rootFolderAt folder (k + 1) = rootFolderAt folder k) :
    findRootLoop env vendorPath n folder = .ret ([], some .ErrMissingVendorFile) := by
  rcases findRootLoop_cases env vendorPath n folder with
    ⟨i, _, hc, hs, _⟩ | ⟨i, _, _, _, _, hres⟩ | ⟨hc, _⟩
  · rcases Nat.lt_trichotomy i k with h | h | h
    · exact absurd (hcont i h).1 hs
    · rw [h] at hs; exact absurd hst hs
    · exact absurd hfix (hc k h).2
  · exact hres
  · exact absurd hfix (hc k hk).2

theorem findRootLoop_panicked (env : Env) (vendorPath folder : Path) (n : Nat)
    (hcont : ∀ j, j < n → RootContinues env folder vendorPath j) :
    findRootLoop env vendorPath n folder = .panicked := by
  rcases findRootLoop_cases env vendorPath n folder with
    ⟨i, hi, _, hs, _⟩ | ⟨i, hi, _, _, hfix, _⟩ | ⟨_, hres⟩
  · exact absurd (hcont i hi).1 hs
  · exact absurd hfix (hcont i hi).2
  · exact hres

theorem rootFolderAt_render (k : Nat) : ∀ (st : List (List Char)),
    (∀ x, x ∈ st → IsElem x) → rootFolderAt (render true st) k = render true (st.drop k) := by
  induction k with
  | zero => intro st _; rfl
  | succ k ih =>
    intro st hst
    simp only [rootFolderAt]
    rw [Join_dotdot_render st hst, Clean_render_true _ (elems_tail st hst),
      ih st.tail (elems_tail st hst)]
    simp

theorem envOf_empty_Stat (limit : Nat) (vf : VendorFile) (q : Path) :
    (envOf [] [] [] limit vf).Stat q = .notExist := by
  simp [envOf, statOf]

theorem rootFolderAt_deepFolder (m j : Nat) :
    rootFolderAt (deepFolder m) j = deepFolder (m - j) := by
  rw [deepFolder, rootFolderAt_render j _ (deepFolder_elems m)]
  simp [deepFolder]

theorem deepFolder_succ_ne (m : Nat) : deepFolder m ≠ deepFolder (m + 1) := by
  have := render_true_tail_ne (List.replicate (m + 1) ['a']) (deepFolder_elems (m + 1))
    (by simp [List.replicate_succ])
  intro h
  apply this
  simpa [deepFolder, List.replicate_succ] using h.symm

/-! ## Claim on `findRoot` -/

/-- C4, as amended.  `findRoot(folder, marker)` returns `(F, nil)` exactly when
`F` is the folder of a round `k` within the first `looplimit + 1` rounds such
that the stat of `F/marker` does not report not-exists (the marker exists, or
its stat fails in another way), every nearer folder having its marker reported
absent and differing from its parent.  Every error it returns is
`ErrMissingVendorFile`, with an empty folder, and it returns that exactly when,
within the first `looplimit + 1` rounds, the walk reaches a folder equal to its
parent with the marker reported absent there and at every folder on the way.
It panics exactly when all of the first `looplimit + 1` rounds go on to a
parent. -/
theorem findRoot_nearest_marker (env : Env) (folder vendorPath : Path) :
    (∀ F, findRoot env folder vendorPath = .ret (F, none) ↔
      ∃ k, k ≤ env.looplimit ∧ F = rootFolderAt folder k ∧
        env.Stat (markerAt folder vendorPath k) ≠ .notExist ∧
        ∀ j, j < k → RootContinues env folder vendorPath j) ∧
    (∀ r e, findRoot env folder vendorPath = .ret (r, some e) →
      r = [] ∧ e = .ErrMissingVendorFile) ∧
    (findRoot env folder vendorPath = .ret ([], some .ErrMissingVendorFile) ↔
      ∃ k, k ≤ env.looplimit ∧ rootFolderAt folder (k + 1) = rootFolderAt folder k ∧
        env.Stat (markerAt folder vendorPath k) = .notExist ∧
        ∀ j, j < k → RootContinues env folder vendorPath j) ∧
    (findRoot env folder vendorPath = .panicked ↔
      ∀ j, j ≤ env.looplimit → RootContinues env folder vendorPath j) ∧
    findRoot env folder vendorPath ≠ .outOfFuel := by
  have hcases := findRootLoop_cases env vendorPath (env.looplimit + 1) folder
  unfold findRoot
  refine ⟨?_, ?_, ?_, ?_, ?_⟩
  · intro F
    constructor
    · intro h
      rcases hcases with ⟨k, hk, hc, hs, hres⟩ | ⟨k, _, _, _, _, hres⟩ | ⟨_, hres⟩
      · rw [hres] at h
        simp only [Outcome.ret.injEq, Prod.mk.injEq, and_true] at h
        exact ⟨k, Nat.le_of_lt_succ hk, h.symm, hs, hc⟩
      · rw [hres] at h; simp at h
      · rw [hres] at h; simp at h
    · rintro ⟨k, hk, rfl, hs, hc⟩
      exact findRootLoop_found env vendorPath folder _ k (Nat.lt_succ_of_le hk) hc hs
  · intro r e h
    rcases hcases with ⟨k, _, _, _, hres⟩ | ⟨k, _, _, _, _, hres⟩ | ⟨_, hres⟩
    · rw [hres] at h; simp at h
    · rw [hres] at h
      simp only [Outcome.ret.injEq, Prod.mk.injEq, Option.some.injEq] at h
      exact ⟨h.1.symm, h.2.symm⟩
    · rw [hres] at h; simp at h
  · constructor
    · intro h
      rcases hcases with ⟨k, _, _, _, hres⟩ | ⟨k, hk, hc, hs, hfix, _⟩ | ⟨_, hres⟩
      · rw [hres] at h; simp at h
      · exact ⟨k, Nat.le_of_lt_succ hk, hfix, hs, hc⟩
      · rw [hres] at h; simp at h
    · rintro ⟨k, hk, hfix, hs, hc⟩
      exact findRootLoop_missing env vendorPath folder _ k (Nat.lt_succ_of_le hk) hc hs hfix
  · constructor
    · intro h j hj
      rcases hcases with ⟨k, _, _, _, hres⟩ | ⟨k, _, _, _, _, hres⟩ | ⟨hc, _⟩
      · rw [hres] at h; simp at h
      · rw [hres] at h; simp at h
      · exact hc j (Nat.lt_succ_of_le hj)
    · intro hc
      exact findRootLoop_panicked env vendorPath folder _
        (fun j hj => hc j (Nat.le_of_lt_succ hj))
  · rcases hcases with ⟨k, _, _, _, hres⟩ | ⟨k, _, _, _, _, hres⟩ | ⟨_, hres⟩ <;>
      rw [hres] <;> simp

/-- C4 as stated fails in two ways.  With the stat of `/ws/proj/vendor.json`
refused and the nearest folder whose marker is seen to exist being `/ws`,
`findRoot` from `/ws/proj` returns `/ws/proj` with a nil error.  And for no
value of `looplimit` does `findRoot` return `ErrMissingVendorFile` from every
folder whose upward walk reaches the root on a file system without any marker:
from `/a/.../a` with `looplimit + 1` elements it panics. -/
theorem findRoot_nearest_marker_counterexample :
    (deniedMarkerEnv.Stat "/ws/proj/vendor.json".toList = .failed 13 ∧
      deniedMarkerEnv.Stat "/ws/vendor.json".toList = .info false ∧
      findRoot deniedMarkerEnv "/ws/proj".toList "vendor.json".toList =
        .ret ("/ws/proj".toList, none)) ∧
    (¬ ∃ limit : Nat, ∀ folder : Path,
      (∃ k, rootFolderAt folder (k + 1) = rootFolderAt folder k) →
      findRoot (envOf [] [] [] limit ⟨[]⟩) folder "vendor.json".toList =
        .ret ([], some .ErrMissingVendorFile)) := by
  refine ⟨by decide, ?_⟩
  rintro ⟨limit, h⟩
  have hfix : ∃ k, rootFolderAt (deepFolder (limit + 1)) (k + 1) =
      rootFolderAt (deepFolder (limit + 1)) k := by
    refine ⟨limit + 1, ?_⟩
    rw [rootFolderAt_deepFolder, rootFolderAt_deepFolder]
    simp
  have hres := h (deepFolder (limit + 1)) hfix
  have hp : findRoot (envOf [] [] [] limit ⟨[]⟩) (deepFolder (limit + 1))
      "vendor.json".toList = .panicked := by
    unfold findRoot
    apply findRootLoop_panicked
    intro j hj
    refine ⟨envOf_empty_Stat _ _ _, ?_⟩
    rw [rootFolderAt_deepFolder, rootFolderAt_deepFolder]
    have hj2 : j < limit + 1 := hj
    have e1 : limit + 1 - j = (limit + 1 - (j + 1)) + 1 := by omega
    rw [e1]
    exact deepFolder_succ_ne _
  rw [hp] at hres
  simp at hres

/-! ## Lemmas on `findCanonicalPath` -/

theorem scanPackages_eq_find (importPath : Path) (l : List VendorPackage) :
    scanPackages importPath l =
      match l.find? (fun pkg => decide (pkg.Local = importPath)) with
      | some pkg => pkg.Canonical
      | none => importPath := by
  induction l with
  | nil => rfl
  | cons pkg rest ih =>
    by_cases h : pkg.Local = importPath
    · simp [scanPackages, List.find?, h]
    · simp [scanPackages, List.find?, h, ih]

theorem rootFolderAt_stays (d : Path) (i : Nat)
    (hfix : rootFolderAt d (i + 1) = rootFolderAt d i) :
    ∀ j, rootFolderAt d (i + j) = rootFolderAt d i := by
  intro j
  induction j with
  | zero => rfl
  | succ j ih =>
    have h1 : i + (j + 1) = (i + j) + 1 := rfl
    rw [h1, rootFolderAt_succ, ih, ← rootFolderAt_succ, hfix]

/-- Where a vendor file that is read is also found by stat and the read after
`findRoot` succeeds, a folder returned by `findRoot` holds the vendor file. -/
theorem findRoot_result_stats (env : Env) (d : Path) (i : Nat)
    (hread : ∀ root, findRoot env d env.vendorFilename = .ret (root, none) →
      ∃ vf, env.readVendorFile (Join [root, env.vendorFilename]) = .ok vf)
    (hfs : ∀ q vf, env.readVendorFile q = .ok vf → ∃ b, env.Stat q = .info b)
    (hres : findRoot env d env.vendorFilename = .ret (rootFolderAt d i, none)) :
    ∃ b, env.Stat (markerAt d env.vendorFilename i) = .info b := by
  obtain ⟨vf, hvf⟩ := hread _ hres
  exact hfs _ vf hvf

/-! ## Claim on `findCanonicalPath` -/

/-- C1, as amended.  Let `findImportDir("", p)` resolve `p` to the directory
`d`, on a file system where a vendor file that can be read is also found by
stat, and let `readVendorFile` succeed whenever it is called.  (a) If the
walk from `d` reaches the root (a folder equal to its parent) within the first
`looplimit + 1` folders and no folder up to there contains the vendor file,
`findCanonicalPath(p)` returns `(p, nil)`.  (b), (c) If, within the first
`looplimit + 1` folders, `F` is the nearest folder that contains the vendor
file and `vf` is what `readVendorFile` gives for it, then
`findCanonicalPath(p)` returns the `Canonical` field of the first record of
`vf` with `Local == p` when there is one, and `(p, nil)` when there is none. -/
theorem findCanonicalPath_three_way (env : Env) (ctx : Context) (fuel : Nat)
    (importPath d g : Path)
    (hres : findImportDir env ctx fuel [] importPath = .ret ⟨d, g, none⟩)
    (hread : ∀ root, findRoot env d env.vendorFilename = .ret (root, none) →
      ∃ vf, env.readVendorFile (Join [root, env.vendorFilename]) = .ok vf)
    (hfs : ∀ q vf, env.readVendorFile q = .ok vf → ∃ b, env.Stat q = .info b) :
    ((∃ k, k ≤ env.looplimit ∧ rootFolderAt d (k + 1) = rootFolderAt d k ∧
        ∀ j, j ≤ k → ∀ b, env.Stat (markerAt d env.vendorFilename j) ≠ .info b) →
      findCanonicalPath env ctx fuel importPath = .ret (importPath, none)) ∧
    (∀ k b vf, k ≤ env.looplimit →
      env.Stat (markerAt d env.vendorFilename k) = .info b →
      (∀ j, j < k → ∀ c, env.Stat (markerAt d env.vendorFilename j) ≠ .info c) →
      env.readVendorFile (markerAt d env.vendorFilename k) = .ok vf →
      findCanonicalPath env ctx fuel importPath =
        match vf.Package.find? (fun pkg => decide (pkg.Local = importPath)) with
        | some pkg => .ret (pkg.Canonical, none)
        | none => .ret (importPath, none)) := by
  have hcases := findRootLoop_cases env env.vendorFilename (env.looplimit + 1) d
  constructor
  · rintro ⟨k, hk, hfix, hno⟩
    rcases hcases with ⟨i, hi, hc, hs, hr⟩ | ⟨i, _, _, _, _, hr⟩ | ⟨hc, _⟩
    · exfalso
      have hik : i ≤ k := by
        by_contra hlt
        exact (hc k (by omega)).2 hfix
      obtain ⟨b, hb⟩ := findRoot_result_stats env d i hread hfs hr
      exact hno i hik b hb
    · have hroot : findRoot env d env.vendorFilename =
          .ret ([], some .ErrMissingVendorFile) := hr
      simp only [findCanonicalPath, hres, hroot, if_true]
    · exact absurd hfix (hc k (Nat.lt_succ_of_le hk)).2
  · intro k b vf hk hs hno hvf
    have hsne : env.Stat (markerAt d env.vendorFilename k) ≠ .notExist := by
      rw [hs]; simp
    have hroot : findRoot env d env.vendorFilename = .ret (rootFolderAt d k, none) := by
      rcases hcases with ⟨i, hi, hc, hsi, hr⟩ | ⟨i, hi, hc, hsi, hfix, _⟩ | ⟨hc, _⟩
      · rcases Nat.lt_trichotomy i k with hlt | heq | hgt
        · exfalso
          obtain ⟨c, hc'⟩ := findRoot_result_stats env d i hread hfs hr
          exact hno i hlt c hc'
        · rw [← heq]; exact hr
        · exact absurd (hc k hgt).1 hsne
      · exfalso
        rcases Nat.lt_or_ge k i with hlt | hge
        · exact hsne (hc k hlt).1
        · obtain ⟨j, rfl⟩ : ∃ j, k = i + j := ⟨k - i, by omega⟩
          apply hsne
          rw [markerAt, rootFolderAt_stays d i hfix j]
          exact hsi
      · exact absurd (hc k (Nat.lt_succ_of_le hk)).1 hsne
    have hvf' : env.readVendorFile (Join [rootFolderAt d k, env.vendorFilename]) = .ok vf :=
      hvf
    simp only [findCanonicalPath, hres, hroot, hvf', scanPackages_eq_find]
    cases vf.Package.find? (fun pkg => decide (pkg.Local = importPath)) <;> rfl

/-- In a snapshot environment whatever is read is also found by stat. -/
theorem envOf_read_stats (dirs files denied : List Path) (limit : Nat) (vf0 : VendorFile)
    (q : Path) (vf : VendorFile)
    (h : (envOf dirs files denied limit vf0).readVendorFile q = .ok vf) :
    ∃ b, (envOf dirs files denied limit vf0).Stat q = .info b := by
  simp only [envOf] at h ⊢
  cases hs : statOf dirs files denied q with
  | notExist => rw [hs] at h; simp at h
  | failed c => rw [hs] at h; simp at h
  | info b => exact ⟨b, rfl⟩

theorem findCanonicalPath_three_way_witness :
    findCanonicalPath vendoredEnv oneRootCtx 0 "proj/vendor/x".toList =
        .ret ("github.com/u/x".toList, none) ∧
    findCanonicalPath vendoredEnv oneRootCtx 0 "proj/vendor/z".toList =
        .ret ("proj/vendor/z".toList, none) ∧
    findCanonicalPath vendoredEnv oneRootCtx 0 "plain".toList =
        .ret ("plain".toList, none) :=
  ⟨((findCanonicalPath_three_way vendoredEnv oneRootCtx 0 "proj/vendor/x".toList
      "/ws/proj/vendor/x".toList "/ws".toList (by decide)
      (fun root h => by
        have hr : findRoot vendoredEnv "/ws/proj/vendor/x".toList vendoredEnv.vendorFilename
            = .ret ("/ws/proj".toList, none) := by decide
        rw [hr] at h
        cases h
        exact ⟨_, rfl⟩)
      (fun q vf h => envOf_read_stats _ _ _ _ _ q vf h)).2 2 false
      ⟨[⟨"proj/vendor/y".toList, "github.com/u/y".toList⟩,
        ⟨"proj/vendor/x".toList, "github.com/u/x".toList⟩,
        ⟨"proj/vendor/x".toList, "github.com/other/x".toList⟩]⟩
      (by decide) (by decide) (by decide) rfl).trans (by decide),
   ((findCanonicalPath_three_way vendoredEnv oneRootCtx 0 "proj/vendor/z".toList
      "/ws/proj/vendor/z".toList "/ws".toList (by decide)
      (fun root h => by
        have hr : findRoot vendoredEnv "/ws/proj/vendor/z".toList vendoredEnv.vendorFilename
            = .ret ("/ws/proj".toList, none) := by decide
        rw [hr] at h
        cases h
        exact ⟨_, rfl⟩)
      (fun q vf h => envOf_read_stats _ _ _ _ _ q vf h)).2 2 false
      ⟨[⟨"proj/vendor/y".toList, "github.com/u/y".toList⟩,
        ⟨"proj/vendor/x".toList, "github.com/u/x".toList⟩,
        ⟨"proj/vendor/x".toList, "github.com/other/x".toList⟩]⟩
      (by decide) (by decide) (by decide) rfl).trans (by decide),
   (findCanonicalPath_three_way vendoredEnv oneRootCtx 0 "plain".toList
      "/ws/plain".toList "/ws".toList (by decide)
      (fun root h => by
        have hr : findRoot vendoredEnv "/ws/plain".toList vendoredEnv.vendorFilename
            = .ret ([], some .ErrMissingVendorFile) := by decide
        rw [hr] at h
        cases h)
      (fun q vf h => envOf_read_stats _ _ _ _ _ q vf h)).1
      ⟨2, by decide, by decide, by decide⟩⟩

theorem isElem_vendorJson : IsElem "vendor.json".toList := by
  refine ⟨by decide, by decide, by decide, by decide⟩

theorem Join_elem (st : List (List Char)) (hst : ∀ x, x ∈ st → IsElem x) (e : List Char)
    (he : IsElem e) : Join [render true st, e] = render true (e :: st) := by
  rw [Join_pair _ _ (render_true_ne_nil st),
    Clean_rooted _ (by rw [head_append_of_ne_nil _ _ (render_true_ne_nil st)]
                       exact render_true_head st),
    cleanStack_append_sep, splitSlash_of_not_mem e he.2.2.2, cleanStack_render_true st hst]
  simp only [List.foldl_cons, List.foldl_nil]
  rw [cleanStep_elem true st e he]

theorem render_true_inj (s t : List (List Char)) (hs : ∀ x, x ∈ s → IsElem x)
    (ht : ∀ x, x ∈ t → IsElem x) (h : render true s = render true t) : s = t := by
  have h1 := cleanStack_render_true s hs
  rw [h, cleanStack_render_true t ht] at h1
  exact h1.symm

theorem deepPackage_elems (m : Nat) : ∀ x, x ∈ ['x'] :: List.replicate m ['a'] → IsElem x := by
  intro x hx
  rcases List.mem_cons.mp hx with rfl | hx
  · exact isElem_x
  · exact deepFolder_elems m x hx

theorem deepEnv_Stat (limit : Nat) (q : Path) :
    (deepEnv limit).Stat q =
      if q = deepPackage (limit + 1) then .info true else .notExist := by
  simp [deepEnv, envOf, statOf]

theorem deepEnv_resolves (limit : Nat) :
    findImportDir (deepEnv limit) (deepCtx limit) 0 [] ['x'] =
      .ret ⟨deepPackage (limit + 1), deepFolder (limit + 1), none⟩ := by
  have hb : ¬ ((['x'] : Path) = strBuiltin ∨ (['x'] : Path) = strUnsafe ∨
      (['x'] : Path) = strC) := by decide
  have hj : Join [deepFolder (limit + 1), ['x']] = deepPackage (limit + 1) :=
    Join_elem _ (deepFolder_elems (limit + 1)) ['x'] isElem_x
  simp [findImportDir, hb, deepCtx, gopathScan, hj, deepEnv_Stat]

/-- Every marker path on the way up from `deepPackage` is absent. -/
theorem deepEnv_marker_absent (limit j : Nat) :
    (deepEnv limit).Stat (markerAt (deepPackage (limit + 1)) "vendor.json".toList j)
      = .notExist := by
  have hel := deepPackage_elems (limit + 1)
  have hdrop := elems_drop _ hel j
  rw [deepEnv_Stat, markerAt, deepPackage, rootFolderAt_render j _ hel,
    Join_elem _ hdrop _ isElem_vendorJson]
  have hne : render true ("vendor.json".toList ::
      List.drop j (['x'] :: List.replicate (limit + 1) ['a'])) ≠
      render true (['x'] :: List.replicate (limit + 1) ['a']) := by
    intro h
    have hinj := render_true_inj _ _ (by
      intro x hx
      rcases List.mem_cons.mp hx with rfl | hx
      · exact isElem_vendorJson
      · exact hdrop x hx) hel h
    have hhead := (List.cons.inj hinj).1
    exact absurd hhead (by decide)
  rw [if_neg hne]

theorem deepEnv_findRoot_panics (limit : Nat) :
    findRoot (deepEnv limit) (deepPackage (limit + 1)) "vendor.json".toList = .panicked := by
  unfold findRoot
  apply findRootLoop_panicked
  intro j hj
  have hj2 : j < limit + 1 := hj
  refine ⟨deepEnv_marker_absent limit j, ?_⟩
  have hel := deepPackage_elems (limit + 1)
  rw [deepPackage, rootFolderAt_render _ _ hel, rootFolderAt_render _ _ hel]
  have hne : List.drop j (['x'] :: List.replicate (limit + 1) ['a']) ≠ [] := by
    intro h
    have := congrArg List.length h
    simp at this
    omega
  have htail : List.drop (j + 1) (['x'] :: List.replicate (limit + 1) ['a']) =
      (List.drop j (['x'] :: List.replicate (limit + 1) ['a'])).tail := by
    rw [List.tail_drop]
  rw [htail]
  exact (render_true_tail_ne _ (elems_drop _ hel j) hne).symm

/-- C1 as stated fails.  With a loop limit of 1, the package `a/x` resolved to
`/ws/a/x` and no vendor file at `/ws/a/x`, `/ws/a`, `/ws` or `/`, where the walk
reaches the root, `findCanonicalPath("a/x")` panics in `findRoot` after two
folders instead of returning `a/x`.  And for no value of `looplimit` does
part (a) hold for every resolved directory: for the package `x` below
`looplimit + 1` folders, with no vendor file anywhere up to the root,
`findCanonicalPath` panics in `findRoot`. -/
theorem findCanonicalPath_three_way_counterexample :
    (lowLimitEnv.looplimit = 1 ∧
      findImportDir lowLimitEnv oneRootCtx 0 [] "a/x".toList =
        .ret ⟨"/ws/a/x".toList, "/ws".toList, none⟩ ∧
      (∀ k, k < 4 →
        lowLimitEnv.Stat (markerAt "/ws/a/x".toList lowLimitEnv.vendorFilename k)
          = .notExist) ∧
      rootFolderAt "/ws/a/x".toList 3 = "/".toList ∧
      rootFolderAt "/ws/a/x".toList 4 = rootFolderAt "/ws/a/x".toList 3 ∧
      findCanonicalPath lowLimitEnv oneRootCtx 0 "a/x".toList = .panicked) ∧
    (¬ ∃ limit : Nat, ∀ (env : Env) (ctx : Context) (p d g : Path),
      env.looplimit = limit →
      findImportDir env ctx 0 [] p = .ret ⟨d, g, none⟩ →
      (∀ root, findRoot env d env.vendorFilename = .ret (root, none) →
        ∃ vf, env.readVendorFile (Join [root, env.vendorFilename]) = .ok vf) →
      (∀ q vf, env.readVendorFile q = .ok vf → ∃ b, env.Stat q = .info b) →
      (∃ k, rootFolderAt d (k + 1) = rootFolderAt d k) →
      (∀ k b, env.Stat (markerAt d env.vendorFilename k) ≠ .info b) →
      findCanonicalPath env ctx 0 p = .ret (p, none)) := by
  refine ⟨by decide, ?_⟩
  rintro ⟨limit, h⟩
  have hfix : ∃ k, rootFolderAt (deepPackage (limit + 1)) (k + 1) =
      rootFolderAt (deepPackage (limit + 1)) k := by
    refine ⟨limit + 2, ?_⟩
    have hel := deepPackage_elems (limit + 1)
    rw [deepPackage, rootFolderAt_render _ _ hel, rootFolderAt_render _ _ hel]
    simp
  have hroot := deepEnv_findRoot_panics limit
  have hv : (deepEnv limit).vendorFilename = "vendor.json".toList := rfl
  have hres := h (deepEnv limit) (deepCtx limit) ['x'] (deepPackage (limit + 1))
    (deepFolder (limit + 1)) rfl (deepEnv_resolves limit)
    (fun root hr => by rw [hv, hroot] at hr; cases hr)
    (fun q vf hq => envOf_read_stats _ _ _ _ _ q vf hq) hfix
    (fun k b => by rw [hv, deepEnv_marker_absent limit k]; simp)
  have hp : findCanonicalPath (deepEnv limit) (deepCtx limit) 0 ['x'] = .panicked := by
    simp only [findCanonicalPath, deepEnv_resolves, hv, hroot]
  rw [hp] at hres
  simp at hres

/-! ## Lemmas on `removePackage` -/

theorem pruneLoop_never_error {σ : Type} (os : OS σ) (n : Nat) :
    ∀ (path : Path) (s : σ) (e : Error), (pruneLoop os n path s).1 ≠ .ret (some e) := by
  induction n with
  | zero => intro path s e; simp [pruneLoop]
  | succ n ih =>
    intro path s e
    rcases hO : os.Open path s with ⟨_ | e1, s1⟩
    · rcases hR : os.Readdir path 1 s1 with ⟨⟨fl, err⟩, s2⟩
      rcases hM : os.Remove path (os.Close path s2) with ⟨_ | e3, s4⟩
      · simp only [pruneLoop, hO, hR, hM]
        split_ifs
        · simp
        · simp
        · simp
        · exact ih _ _ e
      · simp only [pruneLoop, hO, hR, hM]
        split_ifs <;> simp
    · simp [pruneLoop, hO]

theorem removePackage_eq_phaseOne {σ : Type} (os : OS σ) (looplimit : Nat) (path : Path)
    (s : σ) :
    removePackage os looplimit path s =
      match phaseOne os path s with
      | (some e, s1) => (.ret (some e), s1)
      | (none, s1) => pruneLoop os (looplimit + 1) path s1 := by
  rcases hO : os.Open path s with ⟨_ | e1, s1⟩
  · rcases hR : os.Readdir path (-1) s1 with ⟨⟨fl, _ | e2⟩, s2⟩
    · rcases hF : removeFiles os path fl (os.Close path s2) with ⟨_ | e3, s4⟩
      · simp only [removePackage, phaseOne, hO, hR, hF]
      · simp only [removePackage, phaseOne, hO, hR, hF]
    · simp only [removePackage, phaseOne, hO, hR]
  · simp only [removePackage, phaseOne, hO]

/-- The entries after the first one whose removal fails play no part: the
result is that error and the state right after the failed call. -/
theorem removeFiles_first_failure {σ : Type} (os : OS σ) (path : Path)
    (pre : List FileInfo) : ∀ (s s1 s2 : σ) (fi : FileInfo) (post : List FileInfo) (e : Error),
    removeFiles os path pre s = (none, s1) → fi.IsDir = false →
    os.Remove (Join [path, fi.Name]) s1 = (some e, s2) →
    removeFiles os path (pre ++ fi :: post) s = (some e, s2) := by
  induction pre with
  | nil =>
    intro s s1 s2 fi post e hpre hfi hrm
    simp only [removeFiles, Prod.mk.injEq, true_and] at hpre
    subst hpre
    simp [removeFiles, hfi, hrm]
  | cons f rest ih =>
    intro s s1 s2 fi post e hpre hfi hrm
    by_cases hd : f.IsDir = true
    · simp only [removeFiles, hd, if_true] at hpre
      simp only [List.cons_append, removeFiles, hd, if_true]
      exact ih s s1 s2 fi post e hpre hfi hrm
    · rcases hM : os.Remove (Join [path, f.Name]) s with ⟨_ | e1, t⟩
      · simp only [removeFiles, hd, hM] at hpre
        simp only [List.cons_append, removeFiles, hd, hM]
        exact ih t s1 s2 fi post e (by simpa using hpre) hfi hrm
      · simp [removeFiles, hd, hM] at hpre

/-- A failure of `removeFiles` is the failure of the removal of one entry that
is not a directory, every such entry before it having been removed. -/
theorem removeFiles_failure_split {σ : Type} (os : OS σ) (path : Path)
    (fl : List FileInfo) : ∀ (s t : σ) (e : Error),
    removeFiles os path fl s = (some e, t) →
    ∃ pre fi post s1, fl = pre ++ fi :: post ∧ removeFiles os path pre s = (none, s1) ∧
      fi.IsDir = false ∧ os.Remove (Join [path, fi.Name]) s1 = (some e, t) := by
  induction fl with
  | nil => intro s t e h; simp [removeFiles] at h
  | cons f rest ih =>
    intro s t e h
    by_cases hd : f.IsDir = true
    · simp only [removeFiles, hd, if_true] at h
      obtain ⟨pre, fi, post, s1, hfl, hpre, hfi, hrm⟩ := ih s t e h
      refine ⟨f :: pre, fi, post, s1, by simp [hfl], ?_, hfi, hrm⟩
      simp only [removeFiles, hd, if_true]
      exact hpre
    · rcases hM : os.Remove (Join [path, f.Name]) s with ⟨_ | e1, u⟩
      · simp only [removeFiles, hd, hM] at h
        obtain ⟨pre, fi, post, s1, hfl, hpre, hfi, hrm⟩ := ih u t e (by simpa using h)
        refine ⟨f :: pre, fi, post, s1, by simp [hfl], ?_, hfi, hrm⟩
        simp only [removeFiles, hd, hM]
        simpa using hpre
      · simp only [removeFiles, hd, hM] at h
        have h' : e1 = e ∧ u = t := by simpa using h
        refine ⟨[], f, rest, s, rfl, rfl, by simpa using hd, ?_⟩
        rw [hM, h'.1, h'.2]

/-! ## Claim on the errors of `removePackage` -/

/-- C6.  On every file system and every behaviour of its calls:
`removePackage(path)` is phase one followed, when phase one succeeds, by the
pruning loop; it returns a non-nil error exactly when phase one fails, and
then that error; phase one fails only by the failure of `Open`, of the listing,
or of the removal of an entry that is not a directory, the result being that
first error and the state right after the failed call, whatever entries come
later; the pruning loop never returns an error; and in any iteration of the
pruning loop a failure to open, to list (other than `io.EOF`) or to remove
ends the call with a nil error. -/
theorem removePackage_error_contract {σ : Type} (os : OS σ) (looplimit : Nat)
    (path : Path) (s : σ) :
    (removePackage os looplimit path s =
      match phaseOne os path s with
      | (some e, s1) => (.ret (some e), s1)
      | (none, s1) => pruneLoop os (looplimit + 1) path s1) ∧
    (∀ e, (removePackage os looplimit path s).1 = .ret (some e) ↔
      (phaseOne os path s).1 = some e) ∧
    ((phaseOne os path s).1 ≠ none →
      (removePackage os looplimit path s).2 = (phaseOne os path s).2) ∧
    (∀ e t, phaseOne os path s = (some e, t) ↔
      (os.Open path s = (some e, t)) ∨
      (∃ s1 fl s2, os.Open path s = (none, s1) ∧
        os.Readdir path (-1) s1 = ((fl, some e), s2) ∧ t = os.Close path s2) ∨
      (∃ s1 pre fi post s2 s3, os.Open path s = (none, s1) ∧
        os.Readdir path (-1) s1 = ((pre ++ fi :: post, none), s2) ∧
        removeFiles os path pre (os.Close path s2) = (none, s3) ∧
        fi.IsDir = false ∧ os.Remove (Join [path, fi.Name]) s3 = (some e, t))) ∧
    (∀ n p t e, (pruneLoop os n p t).1 ≠ .ret (some e)) ∧
    (∀ n p t,
      (∀ e t1, os.Open p t = (some e, t1) → pruneLoop os (n + 1) p t = (.ret none, t1)) ∧
      (∀ t1 fl e t2, os.Open p t = (none, t1) → os.Readdir p 1 t1 = ((fl, some e), t2) →
        e ≠ .EOF → pruneLoop os (n + 1) p t = (.ret none, os.Close p t2)) ∧
      (∀ t1 fl err t2 e t3, os.Open p t = (none, t1) →
        os.Readdir p 1 t1 = ((fl, err), t2) → (err = none ∨ err = some .EOF) →
        fl.length = 0 → os.Remove p (os.Close p t2) = (some e, t3) →
        pruneLoop os (n + 1) p t = (.ret none, t3))) := by
  have heq := removePackage_eq_phaseOne os looplimit path s
  refine ⟨heq, ?_, ?_, ?_, fun n p t e => pruneLoop_never_error os n p t e, ?_⟩
  · intro e
    rw [heq]
    rcases hP : phaseOne os path s with ⟨_ | e1, s1⟩
    · simp only []
      constructor
      · intro h; exact absurd h (pruneLoop_never_error os _ path s1 e)
      · intro h; simp at h
    · simp
  · intro hne
    rw [heq]
    rcases hP : phaseOne os path s with ⟨_ | e1, s1⟩
    · rw [hP] at hne; simp at hne
    · rfl
  · intro e t
    rcases hO : os.Open path s with ⟨_ | e1, s1⟩
    · rcases hR : os.Readdir path (-1) s1 with ⟨⟨fl, _ | e2⟩, s2⟩
      · have hP : phaseOne os path s = removeFiles os path fl (os.Close path s2) := by
          simp only [phaseOne, hO, hR]
        rw [hP]
        constructor
        · intro h
          obtain ⟨pre, fi, post, s3, hfl, hpre, hfi, hrm⟩ :=
            removeFiles_failure_split os path fl _ t e h
          refine Or.inr (Or.inr ⟨s1, pre, fi, post, s2, s3, rfl, ?_, hpre, hfi, hrm⟩)
          rw [hR, hfl]
        · rintro (h | ⟨t1, fl1, t2, h1, h2, _⟩ |
            ⟨t1, pre, fi, post, t2, t3, h1, h2, hpre, hfi, hrm⟩)
          · cases h
          · cases h1
            rw [hR] at h2
            cases h2
          · cases h1
            rw [hR] at h2
            cases h2
            exact removeFiles_first_failure os path pre _ t3 t fi post e hpre hfi hrm
      · have hP : phaseOne os path s = (some e2, os.Close path s2) := by
          simp only [phaseOne, hO, hR]
        rw [hP]
        constructor
        · intro h
          cases h
          exact Or.inr (Or.inl ⟨s1, fl, s2, rfl, hR, rfl⟩)
        · rintro (h | ⟨t1, fl1, t2, h1, h2, ht⟩ | ⟨t1, pre, fi, post, t2, t3, h1, h2, _⟩)
          · cases h
          · cases h1
            rw [hR] at h2
            cases h2
            rw [ht]
          · cases h1
            rw [hR] at h2
            cases h2
    · have hP : phaseOne os path s = (some e1, s1) := by
        simp only [phaseOne, hO]
      rw [hP]
      constructor
      · intro h; exact Or.inl h
      · rintro (h | ⟨t1, fl1, t2, h1, _⟩ | ⟨t1, pre, fi, post, t2, t3, h1, _⟩)
        · exact h
        · cases h1
        · cases h1
  · intro n p t
    refine ⟨?_, ?_, ?_⟩
    · intro e t1 hO
      simp only [pruneLoop, hO]
    · intro t1 fl e t2 hO hR hne
      simp only [pruneLoop, hO, hR]
      rw [if_pos]
      simp [hne]
    · intro t1 fl err t2 e t3 hO hR herr hlen hM
      have h1 : ¬ (err ≠ none ∧ err ≠ some Error.EOF) := by
        rcases herr with h | h <;> simp [h]
      have h2 : ¬ fl.length > 0 := by omega
      simp only [pruneLoop, hO, hR, if_neg h1, if_neg h2, hM]

/-- An instance of C6 on the directory table `flatTree` with the removal of
`/pkg/b.go` refused: the call returns that error, `a.go` is gone, and `b.go`,
`c.go` and `/pkg` itself are untouched. -/
theorem removePackage_error_contract_witness :
    (removePackage (dirOS ["/pkg/b.go".toList]) 100 "/pkg".toList flatTree).1 =
        .ret (some (.io 13)) ∧
    (removePackage (dirOS ["/pkg/b.go".toList]) 100 "/pkg".toList flatTree).2 =
        [⟨"/".toList, "pkg".toList, true⟩, ⟨"/pkg".toList, "b.go".toList, false⟩,
          ⟨"/pkg".toList, "c.go".toList, false⟩] :=
  ⟨((removePackage_error_contract (dirOS ["/pkg/b.go".toList]) 100 "/pkg".toList
      flatTree).2.1 (.io 13)).mpr (by decide),
    ((removePackage_error_contract (dirOS ["/pkg/b.go".toList]) 100 "/pkg".toList
      flatTree).2.2.1 (by decide)).trans (by decide)⟩

/-! ## The calls of the directory-table file system -/

theorem mem_prunedTo (fs : List Dentry) (path : Path) (i : Nat) (x : Dentry) :
    x ∈ prunedTo fs path i ↔
      x ∈ fs ∧ x.dir ≠ path ∧ ∀ j, j < i → x.path ≠ rootFolderAt path j := by
  simp [prunedTo, List.mem_filter]

theorem nodeExists_of_mem (fs : List Dentry) (e : Dentry) (he : e ∈ fs) :
    nodeExists fs e.path = true := by
  simp only [nodeExists, Bool.or_eq_true, decide_eq_true_eq, List.any_eq_true]
  exact Or.inr ⟨e, he, rfl⟩

theorem isDirectory_of_mem (fs : List Dentry) (e : Dentry) (he : e ∈ fs)
    (hd : e.isDir = true) : isDirectory fs e.path = true := by
  simp only [isDirectory, Bool.or_eq_true, decide_eq_true_eq, List.any_eq_true,
    Bool.and_eq_true]
  exact Or.inr ⟨e, he, hd, rfl⟩

theorem nodeExists_root (fs : List Dentry) : nodeExists fs rootDir = true := by
  simp [nodeExists]

theorem isDirectory_root (fs : List Dentry) : isDirectory fs rootDir = true := by
  simp [isDirectory]

theorem entriesOf_eq_nil (fs : List Dentry) (p : Path) (h : ∀ x, x ∈ fs → x.dir ≠ p) :
    entriesOf fs p = [] := by
  simp only [entriesOf, List.map_eq_nil_iff, List.filter_eq_nil_iff, decide_eq_true_eq]
  exact h

theorem entriesOf_ne_nil (fs : List Dentry) (p : Path) (e : Dentry) (he : e ∈ fs)
    (hd : e.dir = p) : entriesOf fs p ≠ [] := by
  intro h
  simp only [entriesOf, List.map_eq_nil_iff, List.filter_eq_nil_iff, decide_eq_true_eq] at h
  exact h e he hd

theorem dirOS_Open_ok (fs : List Dentry) (p : Path) (h : nodeExists fs p = true) :
    (dirOS []).Open p fs = (none, fs) := by
  simp [dirOS, h]

theorem dirOS_Readdir_all (fs : List Dentry) (p : Path) (h : isDirectory fs p = true) :
    (dirOS []).Readdir p (-1) fs = ((entriesOf fs p, none), fs) := by
  simp [dirOS, h]

theorem dirOS_Readdir_one_empty (fs : List Dentry) (p : Path) (h : isDirectory fs p = true)
    (he : entriesOf fs p = []) :
    (dirOS []).Readdir p 1 fs = (([], some .EOF), fs) := by
  simp [dirOS, h, he]

theorem dirOS_Readdir_one_some (fs : List Dentry) (p : Path) (h : isDirectory fs p = true)
    (he : entriesOf fs p ≠ []) :
    ∃ fl, fl.length > 0 ∧ (dirOS []).Readdir p 1 fs = ((fl, none), fs) := by
  refine ⟨(entriesOf fs p).take 1, ?_, ?_⟩
  · cases hl : entriesOf fs p with
    | nil => exact absurd hl he
    | cons a l => simp
  · simp [dirOS, h, he]

theorem dirOS_Close (fs : List Dentry) (p : Path) : (dirOS []).Close p fs = fs := rfl

theorem dirOS_Remove_root (fs : List Dentry) :
    (dirOS []).Remove rootDir fs = (some (.io 16), fs) := by
  simp [dirOS]

theorem dirOS_Remove_ok (fs : List Dentry) (p : Path) (hroot : p ≠ rootDir)
    (hex : nodeExists fs p = true) (hempty : ∀ x, x ∈ fs → x.dir ≠ p) :
    (dirOS []).Remove p fs = (none, fs.filter (fun e => decide (e.path ≠ p))) := by
  have hany : fs.any (fun e => decide (e.dir = p)) = false := by
    simp only [List.any_eq_false, decide_eq_true_eq]
    exact hempty
  simp only [dirOS, List.not_mem_nil, if_false, if_neg hroot, hex, hany]
  simp

/-! ## Phase one on the directory table -/

/-- Removing the files `L` of the folder `path` one after the other leaves the
table without the entries at their paths. -/
theorem removeFiles_dirOS (path : Path) (L : List Dentry) : ∀ cur : List Dentry,
    (∀ e, e ∈ L → e.dir = path ∧ e.isDir = false ∧ e.path ≠ rootDir ∧
      ∀ x, x ∈ cur → x.dir ≠ e.path) →
    (∀ e, e ∈ L → e ∈ cur) →
    L.Pairwise (fun a b => a.path ≠ b.path) →
    removeFiles (dirOS []) path (L.map (fun e => (⟨e.name, e.isDir⟩ : FileInfo))) cur =
      (none, cur.filter (fun x => decide (∀ e, e ∈ L → x.path ≠ e.path))) := by
  induction L with
  | nil =>
    intro cur _ _ _
    simp [removeFiles]
  | cons e L ih =>
    intro cur hL hmem hpw
    obtain ⟨hdir, hfile, hroot, hchild⟩ := hL e (List.mem_cons_self e L)
    have hjoin : Join [path, e.name] = e.path := by
      rw [Dentry.path, hdir]
    have hrm := dirOS_Remove_ok cur e.path hroot
      (nodeExists_of_mem cur e (hmem e (List.mem_cons_self e L))) hchild
    have hpw' := List.pairwise_cons.mp hpw
    have hrec := ih (cur.filter (fun x => decide (x.path ≠ e.path)))
      (fun d hd => by
        obtain ⟨h1, h2, h3, h4⟩ := hL d (List.mem_cons_of_mem e hd)
        exact ⟨h1, h2, h3, fun x hx => h4 x (List.mem_of_mem_filter hx)⟩)
      (fun d hd => by
        rw [List.mem_filter]
        refine ⟨hmem d (List.mem_cons_of_mem e hd), ?_⟩
        simp only [decide_eq_true_eq]
        exact fun h => hpw'.1 d hd h.symm)
      hpw'.2
    simp only [List.map_cons, removeFiles, hfile, hjoin, hrm]
    simp only [Bool.false_eq_true, if_false]
    rw [hrec, List.filter_filter]
    congr 1
    apply List.filter_congr
    intro x _
    rw [Bool.eq_iff_iff]
    simp only [Bool.and_eq_true, decide_eq_true_eq, List.mem_cons, forall_eq_or_imp]
    exact And.comm

/-- In a well-formed table nothing lies below a file. -/
theorem file_has_no_entries (fs : List Dentry) (hwf : WellFormed fs) (e : Dentry)
    (he : e ∈ fs) (hfile : e.isDir = false) : ∀ x, x ∈ fs → x.dir ≠ e.path := by
  obtain ⟨_, _, h3, h4, h5, _⟩ := hwf
  intro x hx hxe
  rcases h4 x hx with hr | ⟨d, hd, hdd, hdp⟩
  · exact h3 e he (by rw [← hxe, hr])
  · have := h5 d hd e he (by rw [hdp, hxe])
    rw [this, hfile] at hdd
    exact Bool.noConfusion hdd

theorem phaseOne_dirOS (fs : List Dentry) (path : Path) (hwf : WellFormed fs)
    (hpath : ∃ e, e ∈ fs ∧ e.isDir = true ∧ e.path = path)
    (hfiles : ∀ e, e ∈ fs → e.dir = path → e.isDir = false) :
    phaseOne (dirOS []) path fs = (none, prunedTo fs path 0) := by
  obtain ⟨d0, hd0, hd0dir, hd0path⟩ := hpath
  have hex : nodeExists fs path = true := hd0path ▸ nodeExists_of_mem fs d0 hd0
  have hisdir : isDirectory fs path = true := hd0path ▸ isDirectory_of_mem fs d0 hd0 hd0dir
  have hwf' := hwf
  obtain ⟨_, _, h3, _, h5, hnd⟩ := hwf
  have hL : ∀ e, e ∈ fs.filter (fun e => decide (e.dir = path)) →
      e.dir = path ∧ e.isDir = false ∧ e.path ≠ rootDir ∧ ∀ x, x ∈ fs → x.dir ≠ e.path := by
    intro e he
    rw [List.mem_filter] at he
    have hdir : e.dir = path := by simpa using he.2
    exact ⟨hdir, hfiles e he.1 hdir, h3 e he.1,
      file_has_no_entries fs hwf' e he.1 (hfiles e he.1 hdir)⟩
  have hpw : (fs.filter (fun e => decide (e.dir = path))).Pairwise
      (fun a b => a.path ≠ b.path) := by
    have hnd' : (fs.filter (fun e => decide (e.dir = path))).Nodup := hnd.filter _
    refine List.Pairwise.imp_of_mem ?_ hnd'
    intro a b ha hb hab hp
    exact hab (h5 a (List.mem_of_mem_filter ha) b (List.mem_of_mem_filter hb) hp)
  have hrf := removeFiles_dirOS path (fs.filter (fun e => decide (e.dir = path))) fs hL
    (fun e he => List.mem_of_mem_filter he) hpw
  simp only [phaseOne, dirOS_Open_ok fs path hex, dirOS_Readdir_all fs path hisdir,
    dirOS_Close, entriesOf]
  rw [hrf, prunedTo]
  congr 1
  apply List.filter_congr
  intro x hx
  simp only [List.mem_filter, decide_eq_true_eq, and_imp, Nat.not_lt_zero, false_imp_iff,
    implies_true, and_true, decide_eq_decide]
  constructor
  · intro h hxd
    exact h x hx hxd rfl
  · intro h e he hed hxe
    exact h ((h5 x hx e he hxe) ▸ hed)

/-! ## The pruning loop on the directory table -/

theorem dentry_dir_eq_next (fs : List Dentry) (hwf : WellFormed fs) (path : Path) (i : Nat)
    (d : Dentry) (hd : d ∈ fs) (hp : d.path = rootFolderAt path i) :
    d.dir = rootFolderAt path (i + 1) := by
  rw [rootFolderAt_succ, ← hp]
  exact (hwf.1 d hd).symm

/-- Every folder of the chain below round `m` is a directory of the table. -/
theorem chain_dentry (fs : List Dentry) (path : Path) (m : Nat) (h : PruneChain fs path m) :
    ∀ i, i < m → ∃ d, d ∈ fs ∧ d.isDir = true ∧ d.path = rootFolderAt path i := by
  intro i
  induction i with
  | zero => intro _; exact h.isDir
  | succ i ih =>
    intro hi
    obtain ⟨d, hd, _, hdp⟩ := ih (by omega)
    have hdir := dentry_dir_eq_next fs h.wf path i d hd hdp
    rcases h.wf.2.2.2.1 d hd with hr | ⟨d', hd', hdd', hdp'⟩
    · exact absurd (hdir ▸ hr) (h.notRoot (i + 1) hi)
    · exact ⟨d', hd', hdd', hdp'.trans hdir⟩

theorem chain_dentry_stop (fs : List Dentry) (path : Path) (m : Nat)
    (h : PruneChain fs path m) (hnr : rootFolderAt path m ≠ rootDir) :
    ∃ d, d ∈ fs ∧ d.isDir = true ∧ d.path = rootFolderAt path m := by
  obtain ⟨k, hk⟩ : ∃ k, m = k + 1 := ⟨m - 1, by have := h.pos; omega⟩
  subst hk
  obtain ⟨d, hd, _, hdp⟩ := chain_dentry fs path (k + 1) h k (Nat.lt_succ_self k)
  have hdir := dentry_dir_eq_next fs h.wf path k d hd hdp
  rcases h.wf.2.2.2.1 d hd with hr | ⟨d', hd', hdd', hdp'⟩
  · exact absurd (hdir ▸ hr) hnr
  · exact ⟨d', hd', hdd', hdp'.trans hdir⟩

theorem chain_length_step (fs : List Dentry) (path : Path) (m : Nat)
    (h : PruneChain fs path m) (i : Nat) (hi : i < m) :
    (rootFolderAt path (i + 1)).length < (rootFolderAt path i).length := by
  obtain ⟨d, hd, _, hdp⟩ := chain_dentry fs path m h i hi
  have hdir := dentry_dir_eq_next fs h.wf path i d hd hdp
  have := h.wf.2.1 d hd
  rw [hdir, hdp] at this
  exact this

theorem chain_length_lt (fs : List Dentry) (path : Path) (m : Nat)
    (h : PruneChain fs path m) (i : Nat) : ∀ j, i < j → j ≤ m →
    (rootFolderAt path j).length < (rootFolderAt path i).length := by
  intro j
  induction j with
  | zero => intro hij; omega
  | succ j ih =>
    intro hij hjm
    have hstep := chain_length_step fs path m h j (by omega)
    rcases Nat.lt_or_ge i j with hlt | hge
    · exact Nat.lt_trans hstep (ih hlt (by omega))
    · have : i = j := by omega
      subst this
      exact hstep

theorem chain_ne (fs : List Dentry) (path : Path) (m : Nat) (h : PruneChain fs path m)
    (i j : Nat) (hij : i ≠ j) (hi : i ≤ m) (hj : j ≤ m) :
    rootFolderAt path i ≠ rootFolderAt path j := by
  intro heq
  rcases Nat.lt_or_gt_of_ne hij with hlt | hgt
  · have := chain_length_lt fs path m h i j hlt hj
    rw [heq] at this
    exact Nat.lt_irrefl _ this
  · have := chain_length_lt fs path m h j i hgt hi
    rw [heq] at this
    exact Nat.lt_irrefl _ this

/-- The folder of round `i` is still in the table when the rounds before it are done. -/
theorem chain_dentry_kept (fs : List Dentry) (path : Path) (m : Nat)
    (h : PruneChain fs path m) (i : Nat) (hi : i ≤ m) (d : Dentry) (hd : d ∈ fs)
    (hdp : d.path = rootFolderAt path i) : d ∈ prunedTo fs path i := by
  rw [mem_prunedTo]
  refine ⟨hd, ?_, ?_⟩
  · have hdir := dentry_dir_eq_next fs h.wf path i d hd hdp
    have hlen := h.wf.2.1 d hd
    rw [hdp] at hlen
    intro hp
    rw [hp] at hlen
    rcases Nat.eq_zero_or_pos i with h0 | hpos
    · subst h0
      exact Nat.lt_irrefl _ hlen
    · have := chain_length_lt fs path m h 0 i hpos hi
      exact Nat.lt_irrefl _ (Nat.lt_trans hlen this)
  · intro j hj
    rw [hdp]
    exact chain_ne fs path m h i j (by omega) hi (by omega)

/-- When the rounds before `i` are done the folder of round `i` is empty. -/
theorem chain_folder_empty (fs : List Dentry) (path : Path) (m : Nat)
    (h : PruneChain fs path m) (i : Nat) (hi : i < m) :
    ∀ x, x ∈ prunedTo fs path i → x.dir ≠ rootFolderAt path i := by
  intro x hx hxd
  rw [mem_prunedTo] at hx
  obtain ⟨hxf, hxp, hxa⟩ := hx
  rcases Nat.eq_zero_or_pos i with h0 | hpos
  · subst h0
    exact hxp hxd
  · have := h.lonely i hpos hi x hxf hxd
    exact hxa (i - 1) (by omega) this

theorem prunedTo_succ (fs : List Dentry) (path : Path) (i : Nat) :
    (prunedTo fs path i).filter (fun e => decide (e.path ≠ rootFolderAt path i)) =
      prunedTo fs path (i + 1) := by
  rw [prunedTo, prunedTo, List.filter_filter]
  apply List.filter_congr
  intro x _
  rw [Bool.eq_iff_iff]
  simp only [Bool.and_eq_true, decide_eq_true_eq]
  constructor
  · rintro ⟨h1, h2, h3⟩
    refine ⟨h2, fun j hj => ?_⟩
    rcases Nat.lt_or_ge j i with hlt | hge
    · exact h3 j hlt
    · have : j = i := by omega
      subst this
      exact h1
  · rintro ⟨h2, h3⟩
    exact ⟨h3 i (Nat.lt_succ_self i), h2, fun j hj => h3 j (by omega)⟩

/-- One round of the pruning loop below round `m`: the empty folder is removed
and the loop goes on from its parent. -/
theorem pruneLoop_step (fs : List Dentry) (path : Path) (m : Nat)
    (h : PruneChain fs path m) (i n : Nat) (hi : i < m) :
    pruneLoop (dirOS []) (n + 1) (rootFolderAt path i) (prunedTo fs path i) =
      pruneLoop (dirOS []) n (rootFolderAt path (i + 1)) (prunedTo fs path (i + 1)) := by
  obtain ⟨d, hd, hdd, hdp⟩ := chain_dentry fs path m h i hi
  have hkept := chain_dentry_kept fs path m h i (Nat.le_of_lt hi) d hd hdp
  have hex : nodeExists (prunedTo fs path i) (rootFolderAt path i) = true :=
    hdp ▸ nodeExists_of_mem _ d hkept
  have hisdir : isDirectory (prunedTo fs path i) (rootFolderAt path i) = true :=
    hdp ▸ isDirectory_of_mem _ d hkept hdd
  have hempty := chain_folder_empty fs path m h i hi
  have hent := entriesOf_eq_nil _ _ hempty
  have hrm := dirOS_Remove_ok (prunedTo fs path i) (rootFolderAt path i) (h.notRoot i hi)
    hex hempty
  rw [prunedTo_succ] at hrm
  have hnext : Clean (Join [rootFolderAt path i, strDotDot]) = rootFolderAt path (i + 1) :=
    (rootFolderAt_succ path i).symm
  have hne : rootFolderAt path (i + 1) ≠ rootFolderAt path i :=
    chain_ne fs path m h (i + 1) i (by omega) (by omega) (by omega)
  have h1 : ¬ ((some Error.EOF : Option Error) ≠ none ∧
      (some Error.EOF : Option Error) ≠ some Error.EOF) := by simp
  simp only [pruneLoop, dirOS_Open_ok _ _ hex, dirOS_Readdir_one_empty _ _ hisdir hent,
    dirOS_Close, if_neg h1, List.length_nil, gt_iff_lt, Nat.lt_irrefl, if_false, hrm, hnext,
    if_neg hne]

/-- The round of the pruning loop at the folder where it stops: the table is
left as it is and the call returns nil. -/
theorem pruneLoop_stop (fs : List Dentry) (path : Path) (m : Nat)
    (h : PruneChain fs path m) (n : Nat) :
    pruneLoop (dirOS []) (n + 1) (rootFolderAt path m) (prunedTo fs path m) =
      (.ret none, prunedTo fs path m) := by
  have hEOF : ¬ ((some Error.EOF : Option Error) ≠ none ∧
      (some Error.EOF : Option Error) ≠ some Error.EOF) := by simp
  have hnone : ¬ ((none : Option Error) ≠ none ∧ (none : Option Error) ≠ some Error.EOF) := by
    simp
  by_cases hroot : rootFolderAt path m = rootDir
  · rw [hroot]
    by_cases hent : entriesOf (prunedTo fs path m) rootDir = []
    · simp only [pruneLoop, dirOS_Open_ok _ _ (nodeExists_root _),
        dirOS_Readdir_one_empty _ _ (isDirectory_root _) hent, dirOS_Close, if_neg hEOF,
        List.length_nil, gt_iff_lt, Nat.lt_irrefl, if_false, dirOS_Remove_root]
    · obtain ⟨fl, hfl, hrd⟩ := dirOS_Readdir_one_some _ _ (isDirectory_root _) hent
      simp only [pruneLoop, dirOS_Open_ok _ _ (nodeExists_root _), hrd, dirOS_Close,
        if_neg hnone, if_pos hfl]
  · obtain ⟨d, hd, hdd, hdp⟩ := chain_dentry_stop fs path m h hroot
    have hkept := chain_dentry_kept fs path m h m (Nat.le_refl m) d hd hdp
    have hex : nodeExists (prunedTo fs path m) (rootFolderAt path m) = true :=
      hdp ▸ nodeExists_of_mem _ d hkept
    have hisdir : isDirectory (prunedTo fs path m) (rootFolderAt path m) = true :=
      hdp ▸ isDirectory_of_mem _ d hkept hdd
    rcases h.stop with hr | ⟨e, he, hed, hep⟩
    · exact absurd hr hroot
    · have hpos := h.pos
      have hekept : e ∈ prunedTo fs path m := by
        rw [mem_prunedTo]
        refine ⟨he, ?_, ?_⟩
        · rw [hed]
          exact chain_ne fs path m h m 0 (by omega) (Nat.le_refl m) (by omega)
        · intro j hj hej
          have hdir := dentry_dir_eq_next fs h.wf path j e he hej
          rw [hed] at hdir
          have hjm : j + 1 = m := by
            by_contra hne
            exact chain_ne fs path m h m (j + 1) (fun hh => hne hh.symm) (Nat.le_refl m)
              (by omega) hdir
          have : j = m - 1 := by omega
          rw [this] at hej
          exact hep hej
      have hent := entriesOf_ne_nil _ _ e hekept hed
      obtain ⟨fl, hfl, hrd⟩ := dirOS_Readdir_one_some _ _ hisdir hent
      simp only [pruneLoop, dirOS_Open_ok _ _ hex, hrd, dirOS_Close, if_neg hnone, if_pos hfl]

theorem pruneLoop_chain (fs : List Dentry) (path : Path) (m : Nat)
    (h : PruneChain fs path m) (k : Nat) : ∀ i n, i + k = m → k < n →
    pruneLoop (dirOS []) n (rootFolderAt path i) (prunedTo fs path i) =
      (.ret none, prunedTo fs path m) := by
  induction k with
  | zero =>
    intro i n hik hn
    obtain ⟨n', rfl⟩ : ∃ n', n = n' + 1 := ⟨n - 1, by omega⟩
    have : i = m := by omega
    subst this
    exact pruneLoop_stop fs path i h n'
  | succ k ih =>
    intro i n hik hn
    obtain ⟨n', rfl⟩ : ∃ n', n = n' + 1 := ⟨n - 1, by omega⟩
    rw [pruneLoop_step fs path m h i n' (by omega)]
    exact ih (i + 1) n' (by omega) (by omega)

/-- When the chain is longer than the loop limit allows the loop panics. -/
theorem pruneLoop_chain_panics (fs : List Dentry) (path : Path) (m : Nat)
    (h : PruneChain fs path m) (n : Nat) : ∀ i, i + n ≤ m →
    (pruneLoop (dirOS []) n (rootFolderAt path i) (prunedTo fs path i)).1 = .panicked := by
  induction n with
  | zero => intro i _; rfl
  | succ n ih =>
    intro i hin
    rw [pruneLoop_step fs path m h i n (by omega)]
    exact ih (i + 1) (by omega)

/-! ## Claim on the pruning of `removePackage` -/

/-- C5.  On a well-formed directory table whose calls fail for no outside
reason, let `path` be a folder holding files only, let each of the `m - 1`
folders above it hold nothing but the folder below it, and let the folder `m`
steps up be the root or hold something else.  Then `removePackage(path)`
returns exactly when `m ≤ looplimit` (it panics otherwise), and when it returns
the error is nil and the table left is the old one without the files of
`path`, without `path` and without the `m - 1` emptied folders above it: none of
these exists any more, the folder where the walk stopped is still a directory,
and every other entry, among them the other entries of that folder, is still
there. -/
theorem removePackage_prunes (fs : List Dentry) (looplimit : Nat) (path : Path) (m : Nat)
    (h : PruneChain fs path m) :
    (m ≤ looplimit →
      removePackage (dirOS []) looplimit path fs = (.ret none, prunedTo fs path m) ∧
      (∀ e, e ∈ fs → e.dir = path → e ∉ prunedTo fs path m) ∧
      (∀ j, j < m → nodeExists (prunedTo fs path m) (rootFolderAt path j) = false) ∧
      isDirectory (prunedTo fs path m) (rootFolderAt path m) = true ∧
      (∀ e, e ∈ fs → e.dir ≠ path → (∀ j, j < m → e.path ≠ rootFolderAt path j) →
        e ∈ prunedTo fs path m) ∧
      (∀ e, e ∈ fs → e.dir = rootFolderAt path m → e.path ≠ rootFolderAt path (m - 1) →
        e ∈ prunedTo fs path m)) ∧
    (looplimit < m → (removePackage (dirOS []) looplimit path fs).1 = .panicked) := by
  have hone := phaseOne_dirOS fs path h.wf h.isDir h.files
  have heq := removePackage_eq_phaseOne (dirOS []) looplimit path fs
  rw [hone] at heq
  simp only [] at heq
  have hpos := h.pos
  constructor
  · intro hlimit
    refine ⟨?_, ?_, ?_, ?_, ?_, ?_⟩
    · rw [heq]
      exact pruneLoop_chain fs path m h m 0 (looplimit + 1) (by omega) (by omega)
    · intro e _ hed hmem
      rw [mem_prunedTo] at hmem
      exact hmem.2.1 hed
    · intro j hj
      simp only [nodeExists, Bool.or_eq_false_iff, decide_eq_false_iff_not, List.any_eq_false,
        decide_eq_true_eq]
      refine ⟨h.notRoot j hj, ?_⟩
      intro x hx
      rw [mem_prunedTo] at hx
      exact hx.2.2 j hj
    · by_cases hroot : rootFolderAt path m = rootDir
      · rw [hroot]; exact isDirectory_root _
      · obtain ⟨d, hd, hdd, hdp⟩ := chain_dentry_stop fs path m h hroot
        have hkept := chain_dentry_kept fs path m h m (Nat.le_refl m) d hd hdp
        exact hdp ▸ isDirectory_of_mem _ d hkept hdd
    · intro e he hed hep
      rw [mem_prunedTo]
      exact ⟨he, hed, hep⟩
    · intro e he hed hep
      rw [mem_prunedTo]
      refine ⟨he, ?_, ?_⟩
      · rw [hed]
        exact chain_ne fs path m h m 0 (by omega) (Nat.le_refl m) (by omega)
      · intro j hj hej
        have hdir := dentry_dir_eq_next fs h.wf path j e he hej
        rw [hed] at hdir
        have hjm : j + 1 = m := by
          by_contra hne
          exact chain_ne fs path m h m (j + 1) (fun hh => hne hh.symm) (Nat.le_refl m)
            (by omega) hdir
        have : j = m - 1 := by omega
        rw [this] at hej
        exact hep hej
  · intro hlimit
    rw [heq]
    exact pruneLoop_chain_panics fs path m h (looplimit + 1) 0 (by omega)

theorem vendorTree_chain : PruneChain vendorTree "/ws/proj/vendor/a/b".toList 2 where
  wf := by unfold WellFormed; decide
  isDir := by decide
  files := by decide
  pos := by decide
  lonely := by
    intro j h1 h2
    have hj : j = 1 := by omega
    subst hj
    decide
  notRoot := by decide
  stop := by decide

theorem removePackage_prunes_witness :
    removePackage (dirOS []) 100 "/ws/proj/vendor/a/b".toList vendorTree =
      (.ret none,
        [⟨"/".toList, "ws".toList, true⟩,
         ⟨"/ws".toList, "proj".toList, true⟩,
         ⟨"/ws/proj".toList, "vendor".toList, true⟩,
         ⟨"/ws/proj/vendor".toList, "keep.txt".toList, false⟩]) :=
  ((removePackage_prunes vendorTree 100 "/ws/proj/vendor/a/b".toList 2 vendorTree_chain).1
    (by decide)).1.trans (by decide)

end Govendor
